import Mathlib

/- Verification development for the murk repository: shallow embedding of the
   graph-Laplacian diffusion kernels, the topology adjacency builders of the
   crystal_nav / layered_hex / heat_seeker examples, and the engine-call
   protocols of the Python environment adapters (MurkEnv, BatchedVecEnv).
   Field values are modelled as rationals (exact arithmetic); numpy arrays
   become Lean lists; numpy fancy indexing becomes list lookups with an
   explicit sentinel slot. -/

namespace Murk

/- Section: generic list lookups used by the numeric kernels. -/

/-- Elementwise clamp to zero: the embedding of np.maximum(l, 0.0). -/
def clampList (l : List ℚ) : List ℚ := l.map (fun x => max x 0)

/-- Write value v at index i, the embedding of a single numpy cell assignment. -/
def setAt (l : List ℚ) (i : ℕ) (v : ℚ) : List ℚ := l.set i v

/-- Sentinel-padded read: index into the working buffer u ++ [0], so reading
the sentinel rank (= u.length) yields 0, exactly as the padded numpy array
with a zeroed extra slot does. -/
def sentinelGet (u : List ℚ) (j : ℕ) : ℚ := (u ++ [0]).getD j 0

/-- Neighbour-value sum of cell i: gather through row i of the neighbour
table (absent neighbours read the sentinel, contributing 0) and sum. -/
def nbrSumAt (nbr : List (List ℕ)) (u : List ℚ) (i : ℕ) : ℚ :=
  ((nbr.getD i []).map (fun j => sentinelGet u j)).sum

/-- Pre-clamp, pre-stamp diffusion update used by all the diffusion
propagators: per cell, u + D*dt*(nbr_sum - deg*u) - lam*dt*u with the
graph Laplacian L = nbr_sum - deg*u. -/
def lapPre (nbr : List (List ℕ)) (deg : List ℕ) (D lam dt : ℚ) (u : List ℚ) : List ℚ :=
  (List.range u.length).map (fun i =>
    u.getD i 0 + D * dt * (nbrSumAt nbr u i - (deg.getD i 0 : ℚ) * u.getD i 0)
      - lam * dt * u.getD i 0)

/-- The diffusion kernel in the order the source code performs it
(crystal_nav.dual_diffusion_step, layered_hex.beacon_diffusion_step):
Euler update, then stamp the source cell to intensity S, then clamp to 0. -/
def diffKernel (nbr : List (List ℕ)) (deg : List ℕ) (D lam dt : ℚ) (src : ℕ) (S : ℚ)
    (u : List ℚ) : List ℚ :=
  clampList (setAt (lapPre nbr deg D lam dt u) src S)

/-- The diffusion kernel in the order the specification describes it
(section 4.2 steps 4 and 5): Euler update, clamp to 0, then re-stamp the
fixed-source cell afterwards. -/
def diffKernelSpec (nbr : List (List ℕ)) (deg : List ℕ) (D lam dt : ℚ) (src : ℕ) (S : ℚ)
    (u : List ℚ) : List ℚ :=
  setAt (clampList (lapPre nbr deg D lam dt u)) src S

/- Section: crystal_nav FCC adjacency builder (_build_fcc_adjacency). -/

/-- The 12 FCC neighbour offsets, permutations of (+-1, +-1, 0), in the
order listed in crystal_nav.FCC_OFFSETS. -/
def FCC_OFFSETS : List (ℤ × ℤ × ℤ) :=
  [(1, 1, 0), (-1, 1, 0), (1, -1, 0), (-1, -1, 0),
   (1, 0, 1), (-1, 0, 1), (1, 0, -1), (-1, 0, -1),
   (0, 1, 1), (0, -1, 1), (0, 1, -1), (0, -1, -1)]

/-- Canonical FCC cell enumeration for an 8x8x8 lattice: z-then-y-then-x,
keeping only even-parity cells (x congruent to (y+z) mod 2, i.e. the x loop
starts at (y+z) % 2 and steps by 2). -/
def fccCells : List (ℤ × ℤ × ℤ) :=
  (List.range 8).flatMap (fun z => (List.range 8).flatMap (fun y =>
    ((List.range 8).filter (fun x => x % 2 == (y + z) % 2)).map
      (fun x => (Int.ofNat x, Int.ofNat y, Int.ofNat z))))

/-- Coordinate to rank lookup: position of the coordinate in the canonical
cell list, the embedding of the coord_to_rank dictionary. -/
def coordToRank (cells : List (ℤ × ℤ × ℤ)) (c : ℤ × ℤ × ℤ) : Option ℕ :=
  cells.findIdx? (fun e => decide (e = c))

/-- Componentwise coordinate plus offset. -/
def offsetCoord (c o : ℤ × ℤ × ℤ) : ℤ × ℤ × ℤ :=
  (c.1 + o.1, c.2.1 + o.2.1, c.2.2 + o.2.2)

/-- FCC neighbour-index table: row per cell, slot per offset, holding the
neighbour rank when the offset target is a lattice cell and the sentinel
rank (= cell count) otherwise. -/
def fccNbr : List (List ℕ) :=
  fccCells.map (fun c => FCC_OFFSETS.map (fun o =>
    (coordToRank fccCells (offsetCoord c o)).getD fccCells.length))

/-- FCC degree array: per cell, the number of offsets whose target is a
lattice cell (d_count in the source loop). -/
def fccDeg : List ℕ :=
  fccCells.map (fun c =>
    FCC_OFFSETS.countP (fun o => (coordToRank fccCells (offsetCoord c o)).isSome))

/- Section: arithmetic characterisation of the FCC enumeration.  The source
   enumerates z-then-y-then-x with 4 valid x values per (y, z) row, so the
   rank of a valid coordinate has the closed form below; these lemmas let all
   later proofs treat the dictionary lookup as that closed-form function. -/

/-- Coordinate of FCC rank r under the canonical enumeration. -/
def fccCellOfRank (r : ℕ) : ℤ × ℤ × ℤ :=
  (Int.ofNat (2 * (r % 4) + ((r / 4) % 8 + r / 32) % 2),
   Int.ofNat ((r / 4) % 8), Int.ofNat (r / 32))

/-- Validity predicate of an FCC coordinate: inside the 8x8x8 box and of
even parity. -/
def fccValid (c : ℤ × ℤ × ℤ) : Prop :=
  0 ≤ c.1 ∧ c.1 < 8 ∧ 0 ≤ c.2.1 ∧ c.2.1 < 8 ∧ 0 ≤ c.2.2 ∧ c.2.2 < 8 ∧
    (c.1 + c.2.1 + c.2.2) % 2 = 0

instance fccValidDec (c : ℤ × ℤ × ℤ) : Decidable (fccValid c) := by
  unfold fccValid; infer_instance

/-- Closed-form rank of a valid FCC coordinate. -/
def fccRk (c : ℤ × ℤ × ℤ) : ℕ :=
  (c.2.2 * 32 + c.2.1 * 4 + (c.1 - (c.2.1 + c.2.2) % 2) / 2).toNat

/-- Arithmetic rank lookup equivalent to the dictionary lookup. -/
def fccRkOpt (c : ℤ × ℤ × ℤ) : Option ℕ :=
  if fccValid c then some (fccRk c) else none

set_option maxRecDepth 40000 in
theorem fccCells_ofFn : fccCells = (List.range 256).map fccCellOfRank := by decide

theorem fccCells_length : fccCells.length = 256 := by
  rw [fccCells_ofFn]; simp

theorem fccCells_get (i : ℕ) (hi : i < fccCells.length) :
    fccCells.get ⟨i, hi⟩ = fccCellOfRank i := by
  have h2 : i < 256 := fccCells_length ▸ hi
  rw [List.get_eq_getElem, List.getElem_of_eq fccCells_ofFn hi]
  simp only [List.getElem_map, List.getElem_range]

theorem mem_fccCells (c : ℤ × ℤ × ℤ) : c ∈ fccCells ↔ fccValid c := by
  obtain ⟨x, y, z⟩ := c
  simp only [fccCells, List.mem_flatMap, List.mem_map, List.mem_filter, List.mem_range,
    beq_iff_eq, fccValid]
  constructor
  · rintro ⟨zn, hzn, yn, hyn, xn, ⟨hxn, hpar⟩, heq⟩
    rw [Prod.mk.injEq, Prod.mk.injEq] at heq
    obtain ⟨hx, hy, hz⟩ := heq
    subst hx hy hz
    simp only [Int.ofNat_eq_natCast]
    omega
  · rintro ⟨hx0, hx8, hy0, hy8, hz0, hz8, hp⟩
    refine ⟨z.toNat, by omega, y.toNat, by omega, x.toNat, ⟨by omega, by omega⟩, ?_⟩
    rw [Prod.mk.injEq, Prod.mk.injEq]
    simp only [Int.ofNat_eq_natCast]
    refine ⟨by omega, by omega, by omega⟩

theorem fccValid_cellOfRank (r : ℕ) (hr : r < 256) : fccValid (fccCellOfRank r) := by
  simp only [fccValid, fccCellOfRank, Int.ofNat_eq_natCast]
  push_cast
  omega

theorem fccRk_cellOfRank (r : ℕ) (hr : r < 256) : fccRk (fccCellOfRank r) = r := by
  simp only [fccRk, fccCellOfRank, Int.ofNat_eq_natCast]
  push_cast
  omega

theorem fccCells_nodup : fccCells.Nodup := by
  rw [fccCells_ofFn]
  refine List.Nodup.map_on ?_ (List.nodup_range 256)
  intro a ha b hb hab
  rw [List.mem_range] at ha hb
  have := fccRk_cellOfRank a ha
  rw [hab, fccRk_cellOfRank b hb] at this
  exact this.symm

theorem fccCellOfRank_fccRk (c : ℤ × ℤ × ℤ) (h : fccValid c) :
    fccCellOfRank (fccRk c) = c ∧ fccRk c < 256 := by
  have hm : c ∈ fccCells := (mem_fccCells c).mpr h
  obtain ⟨⟨i, hi⟩, hc⟩ := List.mem_iff_get.mp hm
  have hi2 : i < 256 := fccCells_length ▸ hi
  have hcoi : fccCellOfRank i = c := (fccCells_get i hi) ▸ hc
  have hrk : fccRk c = i := by rw [← hcoi, fccRk_cellOfRank i hi2]
  exact ⟨by rw [hrk, hcoi], by rw [hrk]; exact hi2⟩

/-- A nodup list finds an element at its unique index. -/
theorem findIdx?_nodup {α : Type} [DecidableEq α] (l : List α) (hnd : l.Nodup)
    (i : ℕ) (hi : i < l.length) (c : α) (hc : l.get ⟨i, hi⟩ = c) :
    l.findIdx? (fun e => decide (e = c)) = some i := by
  induction l generalizing i with
  | nil => simp at hi
  | cons a t ih =>
    rw [List.findIdx?_cons]
    cases i with
    | zero =>
      simp only [List.get] at hc
      simp [hc]
    | succ j =>
      have hat : a ∉ t := (List.nodup_cons.mp hnd).1
      have hjt : j < t.length := by simpa using hi
      have hct : t.get ⟨j, hjt⟩ = c := hc
      have hac : ¬(a = c) := by
        intro h
        exact hat (h ▸ hct ▸ List.get_mem t j hjt)
      rw [decide_eq_false hac]
      simp only [Bool.false_eq_true, if_false, List.findIdx?_succ]
      rw [ih (List.nodup_cons.mp hnd).2 j hjt hct]
      rfl

theorem coordToRank_fcc (c : ℤ × ℤ × ℤ) : coordToRank fccCells c = fccRkOpt c := by
  unfold coordToRank fccRkOpt
  by_cases h : fccValid c
  · rw [if_pos h]
    obtain ⟨hcell, hlt⟩ := fccCellOfRank_fccRk c h
    have hi : fccRk c < fccCells.length := by rw [fccCells_length]; exact hlt
    refine findIdx?_nodup fccCells fccCells_nodup (fccRk c) hi c ?_
    rw [fccCells_get _ hi, hcell]
  · rw [if_neg h]
    rw [List.findIdx?_eq_none_iff]
    intro e he
    simp only [decide_eq_false_iff_not]
    intro hec
    exact h (hec ▸ (mem_fccCells e).mp he)

/-- Row r of the FCC neighbour table in arithmetic form. -/
def fccRowF (r : ℕ) : List ℕ :=
  FCC_OFFSETS.map (fun o => (fccRkOpt (offsetCoord (fccCellOfRank r) o)).getD 256)

/-- Degree of FCC rank r in arithmetic form. -/
def fccDegF (r : ℕ) : ℕ :=
  FCC_OFFSETS.countP (fun o => (fccRkOpt (offsetCoord (fccCellOfRank r) o)).isSome)

theorem fccNbr_eq : fccNbr = (List.range 256).map fccRowF := by
  have h : (List.range 256).map fccRowF = fccCells.map (fun c =>
      FCC_OFFSETS.map (fun o => (fccRkOpt (offsetCoord c o)).getD 256)) := by
    rw [fccCells_ofFn, List.map_map]
    rfl
  rw [h]
  unfold fccNbr
  refine List.map_congr_left ?_
  intro c hc
  refine List.map_congr_left ?_
  intro o ho
  rw [coordToRank_fcc, fccCells_length]

theorem fccDeg_eq : fccDeg = (List.range 256).map fccDegF := by
  have h : (List.range 256).map fccDegF = fccCells.map (fun c =>
      FCC_OFFSETS.countP (fun o => (fccRkOpt (offsetCoord c o)).isSome)) := by
    rw [fccCells_ofFn, List.map_map]
    rfl
  rw [h]
  unfold fccDeg
  refine List.map_congr_left ?_
  intro c hc
  refine List.countP_congr ?_
  intro o ho
  rw [coordToRank_fcc]

/- Section: generic lemmas about the kernel combinators. -/

theorem sum_range_map {M : Type} [AddCommMonoid M] (n : ℕ) (f : ℕ → M) :
    ((List.range n).map f).sum = ∑ i in Finset.range n, f i := by
  induction n with
  | zero => simp
  | succ m ih =>
    rw [List.range_succ, Finset.sum_range_succ, List.map_append, List.sum_append, ih]
    simp

theorem sentinelGet_eq (u : List ℚ) (j : ℕ) :
    sentinelGet u j = if j < u.length then u.getD j 0 else 0 := by
  unfold sentinelGet
  by_cases h : j < u.length
  · rw [if_pos h, List.getD_append _ _ _ _ h]
  · rw [if_neg h]
    rcases Nat.lt_or_ge j (u.length + 1) with hj | hj
    · have hje : j = u.length := by omega
      subst hje
      rw [List.getD_eq_getElem?_getD, List.getElem?_append_right (le_refl _)]
      simp
    · refine List.getD_eq_default _ _ ?_
      simp only [List.length_append, List.length_cons, List.length_nil]
      omega

theorem getD_nonneg (u : List ℚ) (hu : ∀ x ∈ u, 0 ≤ x) (j : ℕ) : 0 ≤ u.getD j 0 := by
  rcases Nat.lt_or_ge j u.length with h | h
  · rw [List.getD_eq_getElem _ _ h]
    exact hu _ (List.getElem_mem h)
  · rw [List.getD_eq_default _ _ h]

theorem sentinelGet_nonneg (u : List ℚ) (hu : ∀ x ∈ u, 0 ≤ x) (j : ℕ) :
    0 ≤ sentinelGet u j := by
  rw [sentinelGet_eq]
  by_cases h : j < u.length
  · rw [if_pos h]; exact getD_nonneg u hu j
  · rw [if_neg h]

theorem nbrSumAt_nonneg (nbr : List (List ℕ)) (u : List ℚ) (hu : ∀ x ∈ u, 0 ≤ x)
    (i : ℕ) : 0 ≤ nbrSumAt nbr u i := by
  refine List.sum_nonneg ?_
  intro x hx
  obtain ⟨j, hj, rfl⟩ := List.mem_map.mp hx
  exact sentinelGet_nonneg u hu j

theorem clampList_of_nonneg (l : List ℚ) (h : ∀ x ∈ l, 0 ≤ x) : clampList l = l := by
  unfold clampList
  have : ∀ x ∈ l, max x 0 = id x := by
    intro x hx
    exact max_eq_left (h x hx)
  rw [List.map_congr_left this, List.map_id]

/-- Elementwise membership form of the pre-clamp update. -/
theorem mem_lapPre (nbr : List (List ℕ)) (deg : List ℕ) (D lam dt : ℚ) (u : List ℚ)
    (x : ℚ) (hx : x ∈ lapPre nbr deg D lam dt u) :
    ∃ i, i < u.length ∧
      x = u.getD i 0 + D * dt * (nbrSumAt nbr u i - (deg.getD i 0 : ℚ) * u.getD i 0)
        - lam * dt * u.getD i 0 := by
  obtain ⟨i, hi, rfl⟩ := List.mem_map.mp hx
  exact ⟨i, List.mem_range.mp hi, rfl⟩

/-- Core per-cell sign argument: under the stability bound the explicit Euler
update keeps a non-negative cell non-negative. -/
theorem cell_update_nonneg (ui S d M D lam dt : ℚ)
    (hui : 0 ≤ ui) (hS : 0 ≤ S) (hd0 : 0 ≤ d) (hd : d ≤ M)
    (hD : 0 ≤ D) (hl : 0 ≤ lam) (hdt : 0 ≤ dt)
    (hstab : M * D * dt + lam * dt ≤ 1) :
    0 ≤ ui + D * dt * (S - d * ui) - lam * dt * ui := by
  have hDdt : 0 ≤ D * dt := mul_nonneg hD hdt
  have hcoef : 0 ≤ 1 - d * (D * dt) - lam * dt := by
    have : d * (D * dt) ≤ M * (D * dt) := mul_le_mul_of_nonneg_right hd hDdt
    nlinarith
  have h1 : 0 ≤ ui * (1 - d * (D * dt) - lam * dt) := mul_nonneg hui hcoef
  have h2 : 0 ≤ D * dt * S := mul_nonneg hDdt hS
  nlinarith

/-- Elementwise non-negativity of the pre-clamp update under the stability
bound, for any table whose degrees are bounded by M. -/
theorem lapPre_nonneg (nbr : List (List ℕ)) (deg : List ℕ) (M D lam dt : ℚ) (u : List ℚ)
    (hdeg : ∀ i, i < u.length → ((deg.getD i 0 : ℕ) : ℚ) ≤ M)
    (hD : 0 ≤ D) (hl : 0 ≤ lam) (hdt : 0 ≤ dt)
    (hstab : M * D * dt + lam * dt ≤ 1)
    (hu : ∀ x ∈ u, 0 ≤ x) :
    ∀ x ∈ lapPre nbr deg D lam dt u, 0 ≤ x := by
  intro x hx
  obtain ⟨i, hi, rfl⟩ := mem_lapPre nbr deg D lam dt u x hx
  exact cell_update_nonneg (u.getD i 0) (nbrSumAt nbr u i) ((deg.getD i 0 : ℕ) : ℚ) M D lam dt
    (getD_nonneg u hu i) (nbrSumAt_nonneg nbr u hu i) (Nat.cast_nonneg _) (hdeg i hi)
    hD hl hdt hstab

/- Section: exact mass conservation of the Laplacian update. -/

theorem sum_map_ite_count (L : List ℕ) (b : ℕ) (c : ℚ) :
    (L.map (fun j => if j = b then c else 0)).sum = (L.count b : ℚ) * c := by
  induction L with
  | nil => simp
  | cons a t ih =>
    simp only [List.map_cons, List.sum_cons, ih, List.count_cons]
    by_cases h : a = b
    · simp only [h, if_pos rfl, beq_self_eq_true, if_true]
      push_cast
      ring
    · have hb : ¬(a == b) = true := by simpa using h
      simp only [if_neg h, hb, if_false]
      push_cast
      ring

theorem sum_map_finsetSum (L : List ℕ) (s : Finset ℕ) (φ : ℕ → ℕ → ℚ) :
    (L.map (fun j => ∑ b in s, φ b j)).sum = ∑ b in s, (L.map (fun j => φ b j)).sum := by
  induction L with
  | nil => simp
  | cons a t ih =>
    simp only [List.map_cons, List.sum_cons, ih, Finset.sum_add_distrib]

theorem natCast_list_sum (l : List ℕ) : ((l.sum : ℕ) : ℚ) = (l.map (Nat.cast : ℕ → ℚ)).sum := by
  induction l with
  | nil => simp
  | cons a t ih => simp only [List.sum_cons, List.map_cons]; push_cast [ih]; ring

theorem sentinelGet_expand (u : List ℚ) (j : ℕ) :
    sentinelGet u j = ∑ b in Finset.range u.length, (if j = b then u.getD b 0 else 0) := by
  rw [sentinelGet_eq, Finset.sum_ite_eq (Finset.range u.length) j (fun b => u.getD b 0)]
  simp [Finset.mem_range]

/-- Total neighbour-gather mass equals degree-weighted mass whenever the
in-degree of every cell (total count of its rank over all rows) equals its
recorded degree. -/
theorem sum_nbrSum_eq (nbr : List (List ℕ)) (deg : List ℕ) (u : List ℚ)
    (hindeg : ∀ b, b < u.length →
      ((List.range u.length).map (fun i => (nbr.getD i []).count b)).sum = deg.getD b 0) :
    ∑ i in Finset.range u.length, nbrSumAt nbr u i
      = ∑ i in Finset.range u.length, ((deg.getD i 0 : ℕ) : ℚ) * u.getD i 0 := by
  have step1 : ∀ i, nbrSumAt nbr u i
      = ∑ b in Finset.range u.length, ((nbr.getD i []).count b : ℚ) * u.getD b 0 := by
    intro i
    unfold nbrSumAt
    have hmc : ((nbr.getD i []).map (fun j => sentinelGet u j)).sum
        = ((nbr.getD i []).map
            (fun j => ∑ b in Finset.range u.length, (if j = b then u.getD b 0 else 0))).sum := by
      refine congrArg List.sum (List.map_congr_left ?_)
      intro j hj
      exact sentinelGet_expand u j
    rw [hmc, sum_map_finsetSum]
    refine Finset.sum_congr rfl ?_
    intro b hb
    exact sum_map_ite_count (nbr.getD i []) b (u.getD b 0)
  calc ∑ i in Finset.range u.length, nbrSumAt nbr u i
      = ∑ i in Finset.range u.length, ∑ b in Finset.range u.length,
          ((nbr.getD i []).count b : ℚ) * u.getD b 0 :=
        Finset.sum_congr rfl (fun i _ => step1 i)
    _ = ∑ b in Finset.range u.length, ∑ i in Finset.range u.length,
          ((nbr.getD i []).count b : ℚ) * u.getD b 0 := Finset.sum_comm
    _ = ∑ b in Finset.range u.length,
          (∑ i in Finset.range u.length, ((nbr.getD i []).count b : ℚ)) * u.getD b 0 := by
        refine Finset.sum_congr rfl ?_
        intro b hb
        rw [Finset.sum_mul]
    _ = ∑ b in Finset.range u.length, ((deg.getD b 0 : ℕ) : ℚ) * u.getD b 0 := by
        refine Finset.sum_congr rfl ?_
        intro b hb
        rw [Finset.mem_range] at hb
        have hcast : ∑ i in Finset.range u.length, ((nbr.getD i []).count b : ℚ)
            = (((List.range u.length).map (fun i => (nbr.getD i []).count b)).sum : ℚ) := by
          rw [← sum_range_map u.length (fun i => ((nbr.getD i []).count b : ℚ)),
            natCast_list_sum, List.map_map]
          rfl
        rw [hcast, hindeg b hb]

theorem sum_getD_eq_sum (u : List ℚ) :
    ∑ i in Finset.range u.length, u.getD i 0 = u.sum := by
  induction u with
  | nil => simp
  | cons a t ih =>
    rw [List.length_cons, Finset.sum_range_succ']
    simp only [List.getD_cons_succ, List.getD_cons_zero, List.sum_cons]
    rw [ih]
    ring

/-- Exact mass conservation of the pre-clamp kernel at zero decay over a
table with matching in-degrees and degrees. -/
theorem lapPre_sum_conserved (nbr : List (List ℕ)) (deg : List ℕ) (D dt : ℚ) (u : List ℚ)
    (hindeg : ∀ b, b < u.length →
      ((List.range u.length).map (fun i => (nbr.getD i []).count b)).sum = deg.getD b 0) :
    (lapPre nbr deg D 0 dt u).sum = u.sum := by
  unfold lapPre
  rw [sum_range_map]
  have expand : ∀ i ∈ Finset.range u.length,
      u.getD i 0 + D * dt * (nbrSumAt nbr u i - (deg.getD i 0 : ℚ) * u.getD i 0)
        - 0 * dt * u.getD i 0
      = u.getD i 0 + (D * dt * nbrSumAt nbr u i
          - D * dt * ((deg.getD i 0 : ℚ) * u.getD i 0)) := by
    intro i hi
    ring
  rw [Finset.sum_congr rfl expand, Finset.sum_add_distrib, Finset.sum_sub_distrib,
    ← Finset.mul_sum, ← Finset.mul_sum, sum_nbrSum_eq nbr deg u hindeg]
  rw [sum_getD_eq_sum]
  ring

/- Section: the FCC adjacency is inflow-outflow balanced.  Every rank b is
   gathered exactly degree-of-b times across all rows, because the offset set
   is closed under negation and the enumeration is a bijection onto the valid
   coordinates. -/

theorem getD_range_map {α : Type} (n : ℕ) (f : ℕ → α) (d : α) (i : ℕ) (hi : i < n) :
    ((List.range n).map f).getD i d = f i := by
  rw [List.getD_eq_getElem _ _ (by simpa using hi)]
  simp only [List.getElem_map, List.getElem_range]

/-- Componentwise negation of an offset. -/
def negOffset (o : ℤ × ℤ × ℤ) : ℤ × ℤ × ℤ := (-o.1, -o.2.1, -o.2.2)

/-- Componentwise coordinate difference. -/
def diffCoord (c d : ℤ × ℤ × ℤ) : ℤ × ℤ × ℤ :=
  (c.1 - d.1, c.2.1 - d.2.1, c.2.2 - d.2.2)

theorem FCC_OFFSETS_nodup : FCC_OFFSETS.Nodup := by decide

theorem FCC_OFFSETS_neg_mem : ∀ o ∈ FCC_OFFSETS, negOffset o ∈ FCC_OFFSETS := by decide

theorem offsetCoord_diffCoord (c d : ℤ × ℤ × ℤ) : offsetCoord c (diffCoord d c) = d := by
  obtain ⟨a1, a2, a3⟩ := c
  obtain ⟨b1, b2, b3⟩ := d
  simp only [offsetCoord, diffCoord, Prod.mk.injEq]
  refine ⟨by ring, by ring, by ring⟩

theorem negOffset_diffCoord (a b : ℤ × ℤ × ℤ) : negOffset (diffCoord a b) = diffCoord b a := by
  obtain ⟨a1, a2, a3⟩ := a
  obtain ⟨b1, b2, b3⟩ := b
  simp only [negOffset, diffCoord, Prod.mk.injEq]
  refine ⟨by ring, by ring, by ring⟩

theorem offsetCoord_eq_iff (c o d : ℤ × ℤ × ℤ) : offsetCoord c o = d ↔ o = diffCoord d c := by
  obtain ⟨a1, a2, a3⟩ := c
  obtain ⟨o1, o2, o3⟩ := o
  obtain ⟨b1, b2, b3⟩ := d
  simp only [offsetCoord, diffCoord, Prod.mk.injEq]
  constructor
  · rintro ⟨h1, h2, h3⟩; refine ⟨by linarith, by linarith, by linarith⟩
  · rintro ⟨h1, h2, h3⟩; refine ⟨by linarith, by linarith, by linarith⟩

theorem diffCoord_inj (a b c : ℤ × ℤ × ℤ) (h : diffCoord a c = diffCoord b c) : a = b := by
  obtain ⟨a1, a2, a3⟩ := a
  obtain ⟨b1, b2, b3⟩ := b
  obtain ⟨c1, c2, c3⟩ := c
  simp only [diffCoord, Prod.mk.injEq] at h ⊢
  refine ⟨by linarith [h.1], by linarith [h.2.1], by linarith [h.2.2]⟩

theorem diffCoord_offsetCoord (c o : ℤ × ℤ × ℤ) : diffCoord (offsetCoord c o) c = o := by
  obtain ⟨c1, c2, c3⟩ := c
  obtain ⟨o1, o2, o3⟩ := o
  simp only [diffCoord, offsetCoord, Prod.mk.injEq]
  refine ⟨by ring, by ring, by ring⟩

theorem diffCoord_base_offset (c o : ℤ × ℤ × ℤ) :
    diffCoord c (offsetCoord c o) = negOffset o := by
  obtain ⟨c1, c2, c3⟩ := c
  obtain ⟨o1, o2, o3⟩ := o
  simp only [diffCoord, offsetCoord, negOffset, Prod.mk.injEq]
  refine ⟨by ring, by ring, by ring⟩

theorem countP_decide_eq_zero {α : Type} [DecidableEq α] (L : List α) (v : α) (hv : v ∉ L) :
    L.countP (fun x => decide (x = v)) = 0 := by
  refine List.countP_eq_zero.mpr ?_
  intro x hx
  simp only [decide_eq_true_eq]
  intro hxv
  exact hv (hxv ▸ hx)

theorem countP_decide_eq_one {α : Type} [DecidableEq α] (L : List α) (hnd : L.Nodup) (v : α)
    (hv : v ∈ L) : L.countP (fun x => decide (x = v)) = 1 := by
  induction L with
  | nil => simp at hv
  | cons a t ih =>
    rw [List.countP_cons]
    obtain ⟨hat, hndt⟩ := List.nodup_cons.mp hnd
    by_cases hav : a = v
    · subst hav
      rw [countP_decide_eq_zero t a hat]
      simp
    · have hvt : v ∈ t := by
        rcases List.mem_cons.mp hv with h | h
        · exact absurd h.symm hav
        · exact h
      rw [ih hndt hvt]
      simp [hav]

theorem fccRkOpt_isSome (c : ℤ × ℤ × ℤ) :
    (fccRkOpt c).isSome = decide (fccValid c) := by
  unfold fccRkOpt
  by_cases h : fccValid c
  · simp [h]
  · simp [h]

/-- Count of a live rank b in row i of the FCC table: one occurrence per
offset landing exactly on cell b. -/
theorem fccRowF_count (i b : ℕ) (hb : b < 256) :
    (fccRowF i).count b
      = FCC_OFFSETS.countP
          (fun o => decide (o = diffCoord (fccCellOfRank b) (fccCellOfRank i))) := by
  unfold fccRowF
  rw [List.count_eq_countP, List.countP_map]
  refine List.countP_congr ?_
  intro o ho
  simp only [Function.comp_apply]
  have hbeq : ((fccRkOpt (offsetCoord (fccCellOfRank i) o)).getD 256 == b)
      = decide ((fccRkOpt (offsetCoord (fccCellOfRank i) o)).getD 256 = b) := by
    by_cases h : (fccRkOpt (offsetCoord (fccCellOfRank i) o)).getD 256 = b
    · simp [h]
    · simp [h]
  rw [hbeq]
  simp only [decide_eq_true_eq]
  unfold fccRkOpt
  by_cases hv : fccValid (offsetCoord (fccCellOfRank i) o)
  · rw [if_pos hv]
    simp only [Option.getD_some]
    constructor
    · intro h
      obtain ⟨hcell, _⟩ := fccCellOfRank_fccRk _ hv
      rw [h] at hcell
      exact (offsetCoord_eq_iff _ o _).mp hcell.symm
    · intro h
      have hx : offsetCoord (fccCellOfRank i) o = fccCellOfRank b :=
        (offsetCoord_eq_iff _ o _).mpr h
      rw [hx, fccRk_cellOfRank b hb]
  · rw [if_neg hv]
    simp only [Option.getD_none]
    constructor
    · intro h
      omega
    · intro h
      exfalso
      have hx : offsetCoord (fccCellOfRank i) o = fccCellOfRank b :=
        (offsetCoord_eq_iff _ o _).mpr h
      exact hv (hx ▸ fccValid_cellOfRank b hb)

/-- In-degree equals out-degree for the FCC table. -/
theorem fcc_indeg (b : ℕ) (hb : b < 256) :
    ((List.range 256).map (fun i => (fccRowF i).count b)).sum = fccDegF b := by
  rw [sum_range_map]
  rw [Finset.sum_congr rfl (fun i _ => fccRowF_count i b hb)]
  have hcnt : ∀ i : ℕ,
      FCC_OFFSETS.countP
        (fun o => decide (o = diffCoord (fccCellOfRank b) (fccCellOfRank i)))
      = if diffCoord (fccCellOfRank b) (fccCellOfRank i) ∈ FCC_OFFSETS then 1 else 0 := by
    intro i
    by_cases hm : diffCoord (fccCellOfRank b) (fccCellOfRank i) ∈ FCC_OFFSETS
    · rw [if_pos hm]
      exact countP_decide_eq_one FCC_OFFSETS FCC_OFFSETS_nodup _ hm
    · rw [if_neg hm]
      exact countP_decide_eq_zero FCC_OFFSETS _ hm
  rw [Finset.sum_congr rfl (fun i _ => hcnt i), Finset.sum_boole]
  have hcard : (Finset.filter
        (fun i => diffCoord (fccCellOfRank b) (fccCellOfRank i) ∈ FCC_OFFSETS)
        (Finset.range 256)).card
      = ((FCC_OFFSETS.filter
          (fun o => decide (fccValid (offsetCoord (fccCellOfRank b) o)))).toFinset).card := by
    refine Finset.card_bij
      (fun i _ => diffCoord (fccCellOfRank i) (fccCellOfRank b)) ?_ ?_ ?_
    · intro i hi
      rw [Finset.mem_filter, Finset.mem_range] at hi
      obtain ⟨hilt, hoff⟩ := hi
      show diffCoord (fccCellOfRank i) (fccCellOfRank b)
        ∈ (FCC_OFFSETS.filter
            (fun o => decide (fccValid (offsetCoord (fccCellOfRank b) o)))).toFinset
      rw [List.mem_toFinset, List.mem_filter]
      constructor
      · rw [← negOffset_diffCoord]
        exact FCC_OFFSETS_neg_mem _ hoff
      · rw [offsetCoord_diffCoord]
        simp only [decide_eq_true_eq]
        exact fccValid_cellOfRank i hilt
    · intro i1 h1 i2 h2 heq
      rw [Finset.mem_filter, Finset.mem_range] at h1 h2
      have heq2 : diffCoord (fccCellOfRank i1) (fccCellOfRank b)
          = diffCoord (fccCellOfRank i2) (fccCellOfRank b) := heq
      have hc : fccCellOfRank i1 = fccCellOfRank i2 := diffCoord_inj _ _ _ heq2
      have := fccRk_cellOfRank i1 h1.1
      rw [hc, fccRk_cellOfRank i2 h2.1] at this
      exact this.symm
    · intro o ho
      rw [List.mem_toFinset, List.mem_filter] at ho
      obtain ⟨hmem, hval⟩ := ho
      simp only [decide_eq_true_eq] at hval
      obtain ⟨hcell, hlt⟩ := fccCellOfRank_fccRk _ hval
      refine ⟨fccRk (offsetCoord (fccCellOfRank b) o), ?_, ?_⟩
      · rw [Finset.mem_filter, Finset.mem_range]
        refine ⟨hlt, ?_⟩
        rw [hcell, diffCoord_base_offset]
        exact FCC_OFFSETS_neg_mem o hmem
      · show diffCoord (fccCellOfRank (fccRk (offsetCoord (fccCellOfRank b) o)))
          (fccCellOfRank b) = o
        rw [hcell, diffCoord_offsetCoord]
  rw [Nat.cast_id, hcard]
  unfold fccDegF
  have hnods : (FCC_OFFSETS.filter
      (fun o => decide (fccValid (offsetCoord (fccCellOfRank b) o)))).Nodup :=
    List.Nodup.filter _ FCC_OFFSETS_nodup
  rw [List.toFinset_card_of_nodup hnods, ← List.countP_eq_length_filter]
  refine List.countP_congr ?_
  intro o ho
  rw [fccRkOpt_isSome]

/- Section: generic degree-sum and edge-count accounting for a symmetric
   neighbour table with at-most-one multiplicity and no self loops. -/

theorem countP_eq_sum_boole (L : List ℕ) (n : ℕ) (P : ℕ → Prop) [DecidablePred P]
    (hcnt : ∀ b, b < n → L.count b ≤ 1)
    (hsub : ∀ b, P b → b < n) :
    L.countP (fun b => decide (P b)) = ∑ b in Finset.range n, if b ∈ L ∧ P b then 1 else 0 := by
  rw [← Finset.card_filter]
  have hnd : (L.filter (fun b => decide (P b))).Nodup := by
    rw [List.nodup_iff_count_le_one]
    intro b
    by_cases hPb : P b
    · calc (L.filter (fun b => decide (P b))).count b
          ≤ L.count b := List.Sublist.count_le (List.filter_sublist L) b
        _ ≤ 1 := hcnt b (hsub b hPb)
    · have : b ∉ L.filter (fun b => decide (P b)) := by
        intro hmem
        obtain ⟨_, hPb2⟩ := List.mem_filter.mp hmem
        exact hPb (by simpa using hPb2)
      rw [List.count_eq_zero_of_not_mem this]
      omega
  rw [List.countP_eq_length_filter, ← List.toFinset_card_of_nodup hnd]
  congr 1
  ext b
  simp only [List.mem_toFinset, List.mem_filter, Finset.mem_filter, Finset.mem_range,
    decide_eq_true_eq]
  constructor
  · rintro ⟨hbL, hPb⟩
    exact ⟨hsub b hPb, hbL, hPb⟩
  · rintro ⟨_, hbL, hPb⟩
    exact ⟨hbL, hPb⟩

/-- Degree sum equals twice the lower-pair edge count for any symmetric,
loop-free neighbour table with 0/1 multiplicities. -/
theorem sum_deg_twice_edges (n : ℕ) (row : ℕ → List ℕ) (deg : ℕ → ℕ)
    (hdeg : ∀ a, a < n → deg a = (row a).countP (fun b => decide (b < n)))
    (hsym : ∀ a b, a < n → b < n → (b ∈ row a ↔ a ∈ row b))
    (hloop : ∀ a, a < n → a ∉ row a)
    (hcnt : ∀ a b, a < n → b < n → (row a).count b ≤ 1) :
    ((List.range n).map deg).sum
      = 2 * ((List.range n).map
          (fun a => ((row a).filter (fun b => decide (a < b ∧ b < n))).length)).sum := by
  rw [sum_range_map, sum_range_map]
  have hL : ∀ a, a < n → ((row a).filter (fun b => decide (a < b ∧ b < n))).length
      = ∑ b in Finset.range n, if b ∈ row a ∧ (a < b ∧ b < n) then 1 else 0 := by
    intro a ha
    rw [← List.countP_eq_length_filter]
    exact countP_eq_sum_boole (row a) n (fun b => a < b ∧ b < n)
      (fun b hb => hcnt a b ha hb) (fun b hb => hb.2)
  have hD : ∀ a, a < n → deg a
      = ∑ b in Finset.range n, if b ∈ row a ∧ b < n then 1 else 0 := by
    intro a ha
    rw [hdeg a ha]
    exact countP_eq_sum_boole (row a) n (fun b => b < n)
      (fun b hb => hcnt a b ha hb) (fun b hb => hb)
  rw [Finset.sum_congr rfl (fun a ha => hD a (Finset.mem_range.mp ha)),
    Finset.sum_congr rfl (fun a ha => hL a (Finset.mem_range.mp ha))]
  have hSplit : ∀ a ∈ Finset.range n,
      (∑ b in Finset.range n, if b ∈ row a ∧ b < n then 1 else 0)
      = (∑ b in Finset.range n, if b ∈ row a ∧ (a < b ∧ b < n) then 1 else 0)
        + (∑ b in Finset.range n, if b ∈ row a ∧ (b < a ∧ b < n) then 1 else 0) := by
    intro a ha
    rw [Finset.mem_range] at ha
    rw [← Finset.sum_add_distrib]
    refine Finset.sum_congr rfl ?_
    intro b hb
    rw [Finset.mem_range] at hb
    by_cases hm : b ∈ row a
    · have hba : b ≠ a := by
        intro hba
        exact hloop a ha (hba ▸ hm)
      by_cases hab : a < b
      · have : ¬(b < a) := by omega
        simp [hm, hb, hab, this]
      · have : b < a := by omega
        simp [hm, hb, hab, this]
    · simp [hm]
  rw [Finset.sum_congr rfl hSplit, Finset.sum_add_distrib]
  have hU : (∑ a in Finset.range n, ∑ b in Finset.range n,
        if b ∈ row a ∧ (b < a ∧ b < n) then 1 else 0)
      = ∑ a in Finset.range n, ∑ b in Finset.range n,
        if b ∈ row a ∧ (a < b ∧ b < n) then 1 else 0 := by
    rw [Finset.sum_comm]
    refine Finset.sum_congr rfl ?_
    intro a ha
    refine Finset.sum_congr rfl ?_
    intro b hb
    rw [Finset.mem_range] at ha hb
    have hiff : (a ∈ row b ∧ (a < b ∧ a < n)) ↔ (b ∈ row a ∧ (a < b ∧ b < n)) := by
      constructor
      · rintro ⟨hm, hlt, _⟩
        exact ⟨(hsym a b ha hb).mpr hm, hlt, hb⟩
      · rintro ⟨hm, hlt, _⟩
        exact ⟨(hsym a b ha hb).mp hm, hlt, ha⟩
    rw [if_congr hiff rfl rfl]
  rw [hU]
  omega

/- Section: the FCC table satisfies the hypotheses of the generic accounting. -/

theorem mem_fccRowF (a b : ℕ) (hb : b < 256) :
    b ∈ fccRowF a ↔ diffCoord (fccCellOfRank b) (fccCellOfRank a) ∈ FCC_OFFSETS := by
  unfold fccRowF
  rw [List.mem_map]
  constructor
  · rintro ⟨o, ho, hgo⟩
    unfold fccRkOpt at hgo
    by_cases hv : fccValid (offsetCoord (fccCellOfRank a) o)
    · rw [if_pos hv] at hgo
      simp only [Option.getD_some] at hgo
      obtain ⟨hcell, _⟩ := fccCellOfRank_fccRk _ hv
      rw [hgo] at hcell
      have : o = diffCoord (fccCellOfRank b) (fccCellOfRank a) :=
        (offsetCoord_eq_iff _ o _).mp hcell.symm
      exact this ▸ ho
    · rw [if_neg hv] at hgo
      simp only [Option.getD_none] at hgo
      omega
  · intro hmem
    refine ⟨diffCoord (fccCellOfRank b) (fccCellOfRank a), hmem, ?_⟩
    rw [offsetCoord_diffCoord]
    unfold fccRkOpt
    rw [if_pos (fccValid_cellOfRank b hb), fccRk_cellOfRank b hb]
    rfl

theorem fccRowF_sym (a b : ℕ) (ha : a < 256) (hb : b < 256) :
    b ∈ fccRowF a ↔ a ∈ fccRowF b := by
  rw [mem_fccRowF a b hb, mem_fccRowF b a ha]
  constructor
  · intro h
    rw [← negOffset_diffCoord]
    exact FCC_OFFSETS_neg_mem _ h
  · intro h
    rw [← negOffset_diffCoord]
    exact FCC_OFFSETS_neg_mem _ h

theorem fccRowF_no_loop (a : ℕ) (ha : a < 256) : a ∉ fccRowF a := by
  intro hmem
  have h := (mem_fccRowF a a ha).mp hmem
  have hz : diffCoord (fccCellOfRank a) (fccCellOfRank a) = ((0 : ℤ), (0 : ℤ), (0 : ℤ)) := by
    obtain ⟨a1, a2, a3⟩ := fccCellOfRank a
    simp only [diffCoord, Prod.mk.injEq]
    refine ⟨by ring, by ring, by ring⟩
  rw [hz] at h
  revert h
  decide

theorem fccRowF_count_le_one (a b : ℕ) (hb : b < 256) : (fccRowF a).count b ≤ 1 := by
  rw [fccRowF_count a b hb]
  by_cases hm : diffCoord (fccCellOfRank b) (fccCellOfRank a) ∈ FCC_OFFSETS
  · rw [countP_decide_eq_one FCC_OFFSETS FCC_OFFSETS_nodup _ hm]
  · rw [countP_decide_eq_zero FCC_OFFSETS _ hm]
    omega

theorem fccDegF_countP (r : ℕ) :
    fccDegF r = (fccRowF r).countP (fun b => decide (b < 256)) := by
  unfold fccDegF fccRowF
  rw [List.countP_map]
  refine List.countP_congr ?_
  intro o ho
  simp only [Function.comp_apply, fccRkOpt_isSome]
  unfold fccRkOpt
  by_cases hv : fccValid (offsetCoord (fccCellOfRank r) o)
  · rw [if_pos hv]
    obtain ⟨_, hlt⟩ := fccCellOfRank_fccRk _ hv
    simp [hv, hlt]
  · rw [if_neg hv]
    simp [hv]

theorem fccDegF_le_twelve (r : ℕ) : fccDegF r ≤ 12 := by
  unfold fccDegF
  calc FCC_OFFSETS.countP _ ≤ FCC_OFFSETS.length := List.countP_le_length _
    _ = 12 := rfl

/-- Every interior FCC cell has all 12 offsets inside the lattice. -/
theorem fccDegF_interior (c : ℤ × ℤ × ℤ) (hv : fccValid c)
    (hx : 1 ≤ c.1) (hx2 : c.1 < 7) (hy : 1 ≤ c.2.1) (hy2 : c.2.1 < 7)
    (hz : 1 ≤ c.2.2) (hz2 : c.2.2 < 7) :
    fccDegF (fccRk c) = 12 := by
  obtain ⟨hcell, hlt⟩ := fccCellOfRank_fccRk c hv
  unfold fccDegF
  rw [hcell]
  have hall : ∀ o ∈ FCC_OFFSETS,
      ((fccRkOpt (offsetCoord c o)).isSome = true) := by
    intro o ho
    rw [fccRkOpt_isSome]
    simp only [decide_eq_true_eq]
    obtain ⟨x, y, z⟩ := c
    simp only [fccValid] at hv ⊢
    simp only at hx hx2 hy hy2 hz hz2
    fin_cases ho <;>
      (simp only [offsetCoord]; refine ⟨?_, ?_, ?_, ?_, ?_, ?_, ?_⟩ <;> omega)
  calc FCC_OFFSETS.countP (fun o => (fccRkOpt (offsetCoord c o)).isSome)
      = FCC_OFFSETS.length := List.countP_eq_length.mpr hall
    _ = 12 := rfl

/- Section: layered_hex product-space builder (_build_product_structures).
   Cells are (q, r, z) with a 6x6 hex floor plan and 3 floors; enumeration is
   r-then-q-then-z; rows list the in-bounds hex neighbours first (offset
   order), then floor z-1, then floor z+1, padded to 8 with the sentinel. -/

/-- The 6 axial hex offsets in layered_hex.HEX_OFFSETS order: E, NE, NW, W,
SW, SE. -/
def HEX_OFFSETS : List (ℤ × ℤ) :=
  [(1, 0), (1, -1), (0, -1), (-1, 0), (-1, 1), (0, 1)]

/-- Canonical layered-hex cell enumeration: r slowest, then q, then z. -/
def lhCells : List (ℤ × ℤ × ℤ) :=
  (List.range 6).flatMap (fun r => (List.range 6).flatMap (fun q =>
    (List.range 3).map (fun z => (Int.ofNat q, Int.ofNat r, Int.ofNat z))))

/-- In-bounds neighbour ranks of a cell, in source append order: hex
neighbours with in-bounds (q, r), then floor below, then floor above. -/
def lhFound (c : ℤ × ℤ × ℤ) : List ℕ :=
  (HEX_OFFSETS.filterMap (fun o =>
    if 0 ≤ c.1 + o.1 ∧ c.1 + o.1 < 6 ∧ 0 ≤ c.2.1 + o.2 ∧ c.2.1 + o.2 < 6 then
      some ((coordToRank lhCells (c.1 + o.1, c.2.1 + o.2, c.2.2)).getD 108)
    else none))
  ++ (if 0 < c.2.2 then [(coordToRank lhCells (c.1, c.2.1, c.2.2 - 1)).getD 108] else [])
  ++ (if c.2.2 < 2 then [(coordToRank lhCells (c.1, c.2.1, c.2.2 + 1)).getD 108] else [])

/-- A neighbour row: found ranks padded with the sentinel to width 8. -/
def lhRow (c : ℤ × ℤ × ℤ) : List ℕ :=
  lhFound c ++ List.replicate (8 - (lhFound c).length) 108

/-- Layered-hex neighbour table. -/
def lhNbr : List (List ℕ) := lhCells.map lhRow

/-- Layered-hex degree array: the number of found neighbours per cell. -/
def lhDeg : List ℕ := lhCells.map (fun c => (lhFound c).length)

/- Arithmetic characterisation of the layered-hex enumeration. -/

/-- Coordinate of layered-hex rank r. -/
def lhCellOfRank (r : ℕ) : ℤ × ℤ × ℤ :=
  (Int.ofNat ((r / 3) % 6), Int.ofNat (r / 18), Int.ofNat (r % 3))

/-- Validity of a layered-hex coordinate. -/
def lhValid (c : ℤ × ℤ × ℤ) : Prop :=
  0 ≤ c.1 ∧ c.1 < 6 ∧ 0 ≤ c.2.1 ∧ c.2.1 < 6 ∧ 0 ≤ c.2.2 ∧ c.2.2 < 3

instance lhValidDec (c : ℤ × ℤ × ℤ) : Decidable (lhValid c) := by
  unfold lhValid; infer_instance

/-- Closed-form layered-hex rank. -/
def lhRk (c : ℤ × ℤ × ℤ) : ℕ := ((c.2.1 * 6 + c.1) * 3 + c.2.2).toNat

/-- Arithmetic rank lookup for layered hex. -/
def lhRkOpt (c : ℤ × ℤ × ℤ) : Option ℕ :=
  if lhValid c then some (lhRk c) else none

set_option maxRecDepth 40000 in
theorem lhCells_ofFn : lhCells = (List.range 108).map lhCellOfRank := by decide

theorem lhCells_length : lhCells.length = 108 := by
  rw [lhCells_ofFn]; simp

theorem lhCells_get (i : ℕ) (hi : i < lhCells.length) :
    lhCells.get ⟨i, hi⟩ = lhCellOfRank i := by
  rw [List.get_eq_getElem, List.getElem_of_eq lhCells_ofFn hi]
  simp only [List.getElem_map, List.getElem_range]

theorem mem_lhCells (c : ℤ × ℤ × ℤ) : c ∈ lhCells ↔ lhValid c := by
  obtain ⟨q, r, z⟩ := c
  simp only [lhCells, List.mem_flatMap, List.mem_map, List.mem_range, lhValid]
  constructor
  · rintro ⟨rn, hrn, qn, hqn, zn, hzn, heq⟩
    rw [Prod.mk.injEq, Prod.mk.injEq] at heq
    obtain ⟨hq, hr, hz⟩ := heq
    subst hq hr hz
    simp only [Int.ofNat_eq_natCast]
    omega
  · rintro ⟨hq0, hq6, hr0, hr6, hz0, hz3⟩
    refine ⟨r.toNat, by omega, q.toNat, by omega, z.toNat, by omega, ?_⟩
    rw [Prod.mk.injEq, Prod.mk.injEq]
    simp only [Int.ofNat_eq_natCast]
    refine ⟨by omega, by omega, by omega⟩

theorem lhValid_cellOfRank (r : ℕ) (hr : r < 108) : lhValid (lhCellOfRank r) := by
  simp only [lhValid, lhCellOfRank, Int.ofNat_eq_natCast]
  push_cast
  omega

theorem lhRk_cellOfRank (r : ℕ) (hr : r < 108) : lhRk (lhCellOfRank r) = r := by
  simp only [lhRk, lhCellOfRank, Int.ofNat_eq_natCast]
  push_cast
  omega

theorem lhCells_nodup : lhCells.Nodup := by
  rw [lhCells_ofFn]
  refine List.Nodup.map_on ?_ (List.nodup_range 108)
  intro a ha b hb hab
  rw [List.mem_range] at ha hb
  have := lhRk_cellOfRank a ha
  rw [hab, lhRk_cellOfRank b hb] at this
  exact this.symm

theorem lhCellOfRank_lhRk (c : ℤ × ℤ × ℤ) (h : lhValid c) :
    lhCellOfRank (lhRk c) = c ∧ lhRk c < 108 := by
  have hm : c ∈ lhCells := (mem_lhCells c).mpr h
  obtain ⟨⟨i, hi⟩, hc⟩ := List.mem_iff_get.mp hm
  have hi2 : i < 108 := lhCells_length ▸ hi
  have hcoi : lhCellOfRank i = c := (lhCells_get i hi) ▸ hc
  have hrk : lhRk c = i := by rw [← hcoi, lhRk_cellOfRank i hi2]
  exact ⟨by rw [hrk, hcoi], by rw [hrk]; exact hi2⟩

theorem coordToRank_lh (c : ℤ × ℤ × ℤ) : coordToRank lhCells c = lhRkOpt c := by
  unfold coordToRank lhRkOpt
  by_cases h : lhValid c
  · rw [if_pos h]
    obtain ⟨hcell, hlt⟩ := lhCellOfRank_lhRk c h
    have hi : lhRk c < lhCells.length := by rw [lhCells_length]; exact hlt
    refine findIdx?_nodup lhCells lhCells_nodup (lhRk c) hi c ?_
    rw [lhCells_get _ hi, hcell]
  · rw [if_neg h]
    rw [List.findIdx?_eq_none_iff]
    intro e he
    simp only [decide_eq_false_iff_not]
    intro hec
    exact h (hec ▸ (mem_lhCells e).mp he)

/- Section: normal form of the layered-hex rows.  The product-space offset
   set is the hex offsets lifted to the z = 0 plane plus the two line
   offsets; a row holds exactly the ranks of the valid offset targets. -/

/-- The 8 product-space offsets: 6 lifted hex offsets, then down, then up. -/
def LH_OFFSETS : List (ℤ × ℤ × ℤ) :=
  HEX_OFFSETS.map (fun o => (o.1, o.2, 0)) ++ [(0, 0, -1), (0, 0, 1)]

theorem LH_OFFSETS_nodup : LH_OFFSETS.Nodup := by decide

theorem LH_OFFSETS_neg_mem : ∀ o ∈ LH_OFFSETS, negOffset o ∈ LH_OFFSETS := by decide

theorem filterMap_if_eq_map_filter {α β : Type} (L : List α) (p : α → Prop)
    [DecidablePred p] (f : α → β) :
    L.filterMap (fun o => if p o then some (f o) else none)
      = (L.filter (fun o => decide (p o))).map f := by
  induction L with
  | nil => simp
  | cons a t ih =>
    rw [List.filterMap_cons]
    by_cases h : p a
    · simp [h, ih]
    · simp [h, ih]

theorem offsetCoord_mk (q r z a b c : ℤ) :
    offsetCoord (q, r, z) (a, b, c) = (q + a, r + b, z + c) := rfl

theorem lhValid_mk (x y w : ℤ) :
    lhValid (x, y, w) ↔ (0 ≤ x ∧ x < 6 ∧ 0 ≤ y ∧ y < 6 ∧ 0 ≤ w ∧ w < 3) := Iff.rfl

/-- The found-neighbour list of a valid cell is the offset filter-map in
normal form. -/
theorem lhFound_eq (c : ℤ × ℤ × ℤ) (hv : lhValid c) :
    lhFound c = (LH_OFFSETS.filter (fun o => decide (lhValid (offsetCoord c o)))).map
      (fun o => lhRk (offsetCoord c o)) := by
  obtain ⟨q, r, z⟩ := c
  rw [lhValid_mk] at hv
  obtain ⟨hq0, hq6, hr0, hr6, hz0, hz3⟩ := hv
  unfold lhFound LH_OFFSETS
  dsimp only
  rw [List.filter_append, List.map_append]
  have hhex : (HEX_OFFSETS.filterMap (fun o =>
      if 0 ≤ q + o.1 ∧ q + o.1 < 6 ∧ 0 ≤ r + o.2 ∧ r + o.2 < 6 then
        some ((coordToRank lhCells (q + o.1, r + o.2, z)).getD 108)
      else none))
      = ((HEX_OFFSETS.map (fun o => ((o.1 : ℤ), (o.2 : ℤ), (0 : ℤ)))).filter
          (fun o => decide (lhValid (offsetCoord (q, r, z) o)))).map
        (fun o => lhRk (offsetCoord (q, r, z) o)) := by
    rw [List.filter_map, List.map_map]
    rw [filterMap_if_eq_map_filter HEX_OFFSETS
      (fun o => 0 ≤ q + o.1 ∧ q + o.1 < 6 ∧ 0 ≤ r + o.2 ∧ r + o.2 < 6)
      (fun o => (coordToRank lhCells (q + o.1, r + o.2, z)).getD 108)]
    have hpred : ∀ o : ℤ × ℤ,
        (decide (0 ≤ q + o.1 ∧ q + o.1 < 6 ∧ 0 ≤ r + o.2 ∧ r + o.2 < 6))
        = ((fun o3 => decide (lhValid (offsetCoord (q, r, z) o3)))
            ∘ (fun o => ((o.1 : ℤ), (o.2 : ℤ), (0 : ℤ)))) o := by
      intro o
      simp only [Function.comp_apply, offsetCoord_mk, lhValid_mk, decide_eq_decide]
      constructor
      · rintro ⟨h1, h2, h3, h4⟩
        refine ⟨h1, h2, h3, h4, by omega, by omega⟩
      · rintro ⟨h1, h2, h3, h4, _, _⟩
        exact ⟨h1, h2, h3, h4⟩
    rw [List.filter_congr (fun o _ => (hpred o).symm)]
    refine List.map_congr_left ?_
    intro o ho
    rw [List.mem_filter] at ho
    obtain ⟨homem, hob⟩ := ho
    simp only [decide_eq_true_eq] at hob
    have heq3 : offsetCoord (q, r, z) ((o.1 : ℤ), (o.2 : ℤ), (0 : ℤ))
        = (q + o.1, r + o.2, z) := by
      rw [offsetCoord_mk, show z + (0 : ℤ) = z from by ring]
    have hval : lhValid (q + o.1, r + o.2, z) := by
      rw [lhValid_mk]
      refine ⟨hob.1, hob.2.1, hob.2.2.1, hob.2.2.2, by omega, by omega⟩
    simp only [Function.comp_apply]
    rw [heq3, coordToRank_lh]
    unfold lhRkOpt
    rw [if_pos hval]
    rfl
  rw [hhex, List.append_assoc]
  congr 1
  have e1 : offsetCoord (q, r, z) (0, 0, -1) = (q, r, z - 1) := by
    rw [offsetCoord_mk, show q + (0 : ℤ) = q from by ring,
      show r + (0 : ℤ) = r from by ring, show z + (-1 : ℤ) = z - 1 from by ring]
  have e2 : offsetCoord (q, r, z) (0, 0, 1) = (q, r, z + 1) := by
    rw [offsetCoord_mk, show q + (0 : ℤ) = q from by ring,
      show r + (0 : ℤ) = r from by ring]
  by_cases hdown : 0 < z
  · have hvd : lhValid (q, r, z - 1) := by
      rw [lhValid_mk]
      refine ⟨hq0, hq6, hr0, hr6, by omega, by omega⟩
    by_cases hup : z < 2
    · have hvu : lhValid (q, r, z + 1) := by
        rw [lhValid_mk]
        refine ⟨hq0, hq6, hr0, hr6, by omega, by omega⟩
      rw [if_pos hdown, if_pos hup]
      rw [List.filter_cons, List.filter_cons, List.filter_nil]
      rw [e1, e2, if_pos (by simpa using hvd), if_pos (by simpa using hvu)]
      rw [List.map_cons, List.map_cons, List.map_nil, e1, e2]
      rw [coordToRank_lh, coordToRank_lh]
      unfold lhRkOpt
      rw [if_pos hvd, if_pos hvu]
      rfl
    · have hvu : ¬lhValid (q, r, z + 1) := by
        rw [lhValid_mk]
        omega
      rw [if_pos hdown, if_neg hup]
      rw [List.filter_cons, List.filter_cons, List.filter_nil]
      rw [e1, e2, if_pos (by simpa using hvd), if_neg (by simpa using hvu)]
      rw [List.map_cons, List.map_nil, e1]
      rw [coordToRank_lh]
      unfold lhRkOpt
      rw [if_pos hvd]
      rfl
  · have hvd : ¬lhValid (q, r, z - 1) := by
      rw [lhValid_mk]
      omega
    have hup : z < 2 := by omega
    have hvu : lhValid (q, r, z + 1) := by
      rw [lhValid_mk]
      refine ⟨hq0, hq6, hr0, hr6, by omega, by omega⟩
    rw [if_neg hdown, if_pos hup]
    rw [List.filter_cons, List.filter_cons, List.filter_nil]
    rw [e1, e2, if_neg (by simpa using hvd), if_pos (by simpa using hvu)]
    rw [List.map_cons, List.map_nil, e2]
    rw [coordToRank_lh]
    unfold lhRkOpt
    rw [if_pos hvu]
    rfl

theorem lhNbr_eq : lhNbr = (List.range 108).map (fun r => lhRow (lhCellOfRank r)) := by
  unfold lhNbr
  rw [lhCells_ofFn, List.map_map]
  rfl

theorem lhDeg_eq :
    lhDeg = (List.range 108).map (fun r => (lhFound (lhCellOfRank r)).length) := by
  unfold lhDeg
  rw [lhCells_ofFn, List.map_map]
  rfl

theorem lhRow_count (r b : ℕ) (hr : r < 108) (hb : b < 108) :
    (lhRow (lhCellOfRank r)).count b
      = LH_OFFSETS.countP
          (fun o => decide (o = diffCoord (lhCellOfRank b) (lhCellOfRank r))) := by
  have hv := lhValid_cellOfRank r hr
  unfold lhRow
  rw [List.count_append]
  have hrep : (List.replicate (8 - (lhFound (lhCellOfRank r)).length) 108).count b = 0 := by
    rw [List.count_replicate]
    have hne : (108 == b) = false := by
      simp only [beq_eq_false_iff_ne, ne_eq]
      omega
    rw [hne]
    rfl
  rw [hrep, lhFound_eq _ hv, List.count_eq_countP, List.countP_map, List.countP_filter]
  rw [Nat.add_zero]
  refine List.countP_congr ?_
  intro o ho
  simp only [Function.comp_apply]
  have hbeq : ∀ m : ℕ, (m == b) = decide (m = b) := by
    intro m
    by_cases h : m = b
    · simp [h]
    · simp [h]
  rw [hbeq]
  by_cases hvv : lhValid (offsetCoord (lhCellOfRank r) o)
  · rw [decide_eq_true hvv, Bool.and_true]
    simp only [decide_eq_true_eq]
    constructor
    · intro h
      obtain ⟨hcell, _⟩ := lhCellOfRank_lhRk _ hvv
      rw [h] at hcell
      exact (offsetCoord_eq_iff _ o _).mp hcell.symm
    · intro h
      have hx : offsetCoord (lhCellOfRank r) o = lhCellOfRank b :=
        (offsetCoord_eq_iff _ o _).mpr h
      rw [hx, lhRk_cellOfRank b hb]
  · rw [decide_eq_false hvv, Bool.and_false]
    have : ¬(o = diffCoord (lhCellOfRank b) (lhCellOfRank r)) := by
      intro h
      have hx : offsetCoord (lhCellOfRank r) o = lhCellOfRank b :=
        (offsetCoord_eq_iff _ o _).mpr h
      exact hvv (hx ▸ lhValid_cellOfRank b hb)
    rw [decide_eq_false this]

theorem mem_lhRowF (r b : ℕ) (hr : r < 108) (hb : b < 108) :
    b ∈ lhRow (lhCellOfRank r)
      ↔ diffCoord (lhCellOfRank b) (lhCellOfRank r) ∈ LH_OFFSETS := by
  rw [← List.count_pos_iff, lhRow_count r b hr hb]
  constructor
  · intro h
    by_contra hm
    rw [countP_decide_eq_zero _ _ hm] at h
    omega
  · intro hm
    rw [countP_decide_eq_one _ LH_OFFSETS_nodup _ hm]
    omega

theorem lhRowF_sym (a b : ℕ) (ha : a < 108) (hb : b < 108) :
    b ∈ lhRow (lhCellOfRank a) ↔ a ∈ lhRow (lhCellOfRank b) := by
  rw [mem_lhRowF a b ha hb, mem_lhRowF b a hb ha]
  constructor
  · intro h
    rw [← negOffset_diffCoord]
    exact LH_OFFSETS_neg_mem _ h
  · intro h
    rw [← negOffset_diffCoord]
    exact LH_OFFSETS_neg_mem _ h

theorem lhRowF_no_loop (a : ℕ) (ha : a < 108) : a ∉ lhRow (lhCellOfRank a) := by
  intro hmem
  have h := (mem_lhRowF a a ha ha).mp hmem
  have hz : diffCoord (lhCellOfRank a) (lhCellOfRank a) = ((0 : ℤ), (0 : ℤ), (0 : ℤ)) := by
    obtain ⟨a1, a2, a3⟩ := lhCellOfRank a
    simp only [diffCoord, Prod.mk.injEq]
    refine ⟨by ring, by ring, by ring⟩
  rw [hz] at h
  revert h
  decide

theorem lhRowF_count_le_one (a b : ℕ) (ha : a < 108) (hb : b < 108) :
    (lhRow (lhCellOfRank a)).count b ≤ 1 := by
  rw [lhRow_count a b ha hb]
  by_cases hm : diffCoord (lhCellOfRank b) (lhCellOfRank a) ∈ LH_OFFSETS
  · rw [countP_decide_eq_one LH_OFFSETS LH_OFFSETS_nodup _ hm]
  · rw [countP_decide_eq_zero LH_OFFSETS _ hm]
    omega

theorem lhFound_mem_lt (r : ℕ) (hr : r < 108) :
    ∀ b ∈ lhFound (lhCellOfRank r), b < 108 := by
  intro b hbmem
  rw [lhFound_eq _ (lhValid_cellOfRank r hr)] at hbmem
  obtain ⟨o, ho, rfl⟩ := List.mem_map.mp hbmem
  obtain ⟨_, hov⟩ := List.mem_filter.mp ho
  simp only [decide_eq_true_eq] at hov
  exact (lhCellOfRank_lhRk _ hov).2

theorem lhDegF_countP (r : ℕ) (hr : r < 108) :
    (lhFound (lhCellOfRank r)).length
      = (lhRow (lhCellOfRank r)).countP (fun b => decide (b < 108)) := by
  unfold lhRow
  rw [List.countP_append]
  have hrep : (List.replicate (8 - (lhFound (lhCellOfRank r)).length) 108).countP
      (fun b => decide (b < 108)) = 0 := by
    refine List.countP_eq_zero.mpr ?_
    intro b hb
    rw [List.eq_of_mem_replicate hb]
    simp
  rw [hrep, Nat.add_zero]
  exact (List.countP_eq_length.mpr (fun b hb => by
    simp only [decide_eq_true_eq]
    exact lhFound_mem_lt r hr b hb)).symm

/-- Every interior layered-hex cell has all 8 offsets inside the space. -/
theorem lhDegF_interior (c : ℤ × ℤ × ℤ) (hv : lhValid c)
    (hq : 1 ≤ c.1) (hq2 : c.1 < 5) (hr : 1 ≤ c.2.1) (hr2 : c.2.1 < 5)
    (hz : 0 < c.2.2) (hz2 : c.2.2 < 2) :
    (lhFound (lhCellOfRank (lhRk c))).length = 8 := by
  obtain ⟨hcell, hlt⟩ := lhCellOfRank_lhRk c hv
  rw [hcell, lhFound_eq c hv]
  rw [List.length_map]
  have hall : ∀ o ∈ LH_OFFSETS, (decide (lhValid (offsetCoord c o)) = true) := by
    intro o ho
    simp only [decide_eq_true_eq]
    obtain ⟨q, r, z⟩ := c
    rw [lhValid_mk] at hv
    simp only at hq hq2 hr hr2 hz hz2
    fin_cases ho <;>
      (rw [offsetCoord_mk, lhValid_mk]; omega)
  calc (LH_OFFSETS.filter (fun o => decide (lhValid (offsetCoord c o)))).length
      = LH_OFFSETS.countP (fun o => decide (lhValid (offsetCoord c o))) :=
        (List.countP_eq_length_filter _ _).symm
    _ = LH_OFFSETS.length := List.countP_eq_length.mpr hall
    _ = 8 := rfl

/- Section: the concrete diffusion propagators of the two 3-D examples. -/

/-- Beacon diffusion coefficient (0.06 in both crystal_nav and layered_hex). -/
def BEACON_D : ℚ := 6 / 100

/-- Radiation diffusion coefficient (0.04). -/
def RADIATION_D : ℚ := 4 / 100

/-- Beacon decay rate (0.01 in both examples). -/
def BEACON_DECAY : ℚ := 1 / 100

/-- Radiation decay rate (0.03). -/
def RADIATION_DECAY : ℚ := 3 / 100

/-- Fixed source intensity (10.0 in all examples). -/
def SOURCE_INTENSITY : ℚ := 10

/-- Rank of the crystal_nav beacon source cell (6, 6, 6). -/
def beaconRank : ℕ := (coordToRank fccCells (6, 6, 6)).getD 256

/-- Rank of the crystal_nav radiation source cell (2, 2, 2). -/
def radiationRank : ℕ := (coordToRank fccCells (2, 2, 2)).getD 256

/-- Rank of the layered_hex goal cell (5, 5, 2). -/
def goalRank : ℕ := (coordToRank lhCells (5, 5, 2)).getD 108

theorem beaconRank_eq : beaconRank = 219 := by
  unfold beaconRank
  rw [coordToRank_fcc]
  decide

theorem radiationRank_eq : radiationRank = 73 := by
  unfold radiationRank
  rw [coordToRank_fcc]
  decide

theorem goalRank_eq : goalRank = 107 := by
  unfold goalRank
  rw [coordToRank_lh]
  decide

/-- Embedding of crystal_nav.dual_diffusion_step: both fields run the
sentinel-padded graph-Laplacian kernel over the FCC table, stamp their source
cell with the intensity, then clamp to zero. -/
def dual_diffusion_step (dt : ℚ) (prev_beacon prev_radiation : List ℚ) :
    List ℚ × List ℚ :=
  (diffKernel fccNbr fccDeg BEACON_D BEACON_DECAY dt beaconRank SOURCE_INTENSITY prev_beacon,
   diffKernel fccNbr fccDeg RADIATION_D RADIATION_DECAY dt radiationRank SOURCE_INTENSITY
     prev_radiation)

/-- Embedding of layered_hex.beacon_diffusion_step: the same kernel over the
product-space table with the goal cell as source. -/
def beacon_diffusion_step (dt : ℚ) (prev : List ℚ) : List ℚ :=
  diffKernel lhNbr lhDeg BEACON_D BEACON_DECAY dt goalRank SOURCE_INTENSITY prev

/-- Stamping before clamping equals clamping before stamping whenever the
stamped intensity is non-negative. -/
theorem diffKernel_eq_spec (nbr : List (List ℕ)) (deg : List ℕ) (D lam dt : ℚ)
    (src : ℕ) (S : ℚ) (hS : 0 ≤ S) (u : List ℚ) :
    diffKernel nbr deg D lam dt src S u = diffKernelSpec nbr deg D lam dt src S u := by
  unfold diffKernel diffKernelSpec clampList setAt
  rw [List.map_set, max_eq_left hS]

theorem setAt_getD_ne (l : List ℚ) (i : ℕ) (v : ℚ) (j : ℕ) (h : j ≠ i) :
    (setAt l i v).getD j 0 = l.getD j 0 := by
  unfold setAt
  rw [List.getD_eq_getElem?_getD, List.getD_eq_getElem?_getD,
    List.getElem?_set_ne (fun he => h he.symm)]

theorem setAt_getD_at (l : List ℚ) (i : ℕ) (v : ℚ) (h : i < l.length) :
    (setAt l i v).getD i 0 = v := by
  unfold setAt
  rw [List.getD_eq_getElem?_getD, List.getElem?_set_eq h]
  rfl

theorem lapPre_length (nbr : List (List ℕ)) (deg : List ℕ) (D lam dt : ℚ) (u : List ℚ) :
    (lapPre nbr deg D lam dt u).length = u.length := by
  unfold lapPre
  rw [List.length_map, List.length_range]

theorem clampList_length (l : List ℚ) : (clampList l).length = l.length := by
  unfold clampList
  rw [List.length_map]

/-- Claim C1: the diffusion kernels of crystal_nav.dual_diffusion_step and
layered_hex.beacon_diffusion_step implement the specification algorithm
exactly: sentinel-padded gather, graph Laplacian L = nbr_sum - deg*u,
explicit Euler update clamped to zero, and the fixed-source cell re-stamped
to its intensity after the update, changing that cell only. -/
theorem claim_C1 (dt : ℚ) (pb pr u : List ℚ)
    (hpb : pb.length = 256) (hpr : pr.length = 256) (hu : u.length = 108) :
    dual_diffusion_step dt pb pr
        = (diffKernelSpec fccNbr fccDeg BEACON_D BEACON_DECAY dt beaconRank
             SOURCE_INTENSITY pb,
           diffKernelSpec fccNbr fccDeg RADIATION_D RADIATION_DECAY dt radiationRank
             SOURCE_INTENSITY pr)
      ∧ beacon_diffusion_step dt u
          = diffKernelSpec lhNbr lhDeg BEACON_D BEACON_DECAY dt goalRank
              SOURCE_INTENSITY u
      ∧ (∀ j, j ≠ beaconRank →
          (diffKernelSpec fccNbr fccDeg BEACON_D BEACON_DECAY dt beaconRank
              SOURCE_INTENSITY pb).getD j 0
            = (clampList (lapPre fccNbr fccDeg BEACON_D BEACON_DECAY dt pb)).getD j 0)
      ∧ (diffKernelSpec fccNbr fccDeg BEACON_D BEACON_DECAY dt beaconRank
            SOURCE_INTENSITY pb).getD beaconRank 0 = SOURCE_INTENSITY := by
  have hS : (0 : ℚ) ≤ SOURCE_INTENSITY := by norm_num [SOURCE_INTENSITY]
  refine ⟨?_, ?_, ?_, ?_⟩
  · unfold dual_diffusion_step
    rw [diffKernel_eq_spec _ _ _ _ _ _ _ hS, diffKernel_eq_spec _ _ _ _ _ _ _ hS]
  · unfold beacon_diffusion_step
    rw [diffKernel_eq_spec _ _ _ _ _ _ _ hS]
  · intro j hj
    unfold diffKernelSpec
    exact setAt_getD_ne _ _ _ _ hj
  · unfold diffKernelSpec
    refine setAt_getD_at _ _ _ ?_
    rw [clampList_length, lapPre_length, hpb, beaconRank_eq]
    omega

/-- Concrete instance of claim C1 at the zero field. -/
theorem claim_C1_witness :
    (List.replicate 256 (0 : ℚ)).length = 256
      ∧ (List.replicate 108 (0 : ℚ)).length = 108
      ∧ dual_diffusion_step 1 (List.replicate 256 (0 : ℚ)) (List.replicate 256 (0 : ℚ))
          = (diffKernelSpec fccNbr fccDeg BEACON_D BEACON_DECAY 1 beaconRank
               SOURCE_INTENSITY (List.replicate 256 (0 : ℚ)),
             diffKernelSpec fccNbr fccDeg RADIATION_D RADIATION_DECAY 1 radiationRank
               SOURCE_INTENSITY (List.replicate 256 (0 : ℚ))) :=
  ⟨by rw [List.length_replicate], by rw [List.length_replicate],
    (claim_C1 1 (List.replicate 256 (0 : ℚ)) (List.replicate 256 (0 : ℚ))
      (List.replicate 108 (0 : ℚ)) (by rw [List.length_replicate])
      (by rw [List.length_replicate]) (by rw [List.length_replicate])).1⟩

/- Section: stability and non-negativity of the crystal_nav kernel. -/

theorem fccDeg_getD_le (i : ℕ) : fccDeg.getD i 0 ≤ 12 := by
  rw [fccDeg_eq]
  by_cases hi : i < 256
  · rw [getD_range_map 256 fccDegF 0 i hi]
    exact fccDegF_le_twelve i
  · rw [List.getD_eq_default]
    · omega
    · rw [List.length_map, List.length_range]
      omega

theorem fccDeg_cast_le (i : ℕ) : ((fccDeg.getD i 0 : ℕ) : ℚ) ≤ 12 := by
  have h := fccDeg_getD_le i
  exact_mod_cast h

/-- An all-zero-except-one field over the FCC lattice, peaked at the
radiation source cell (an interior cell of degree 12). -/
def fccSpike : List ℚ := (List.range 256).map (fun i => if i = 73 then (1 : ℚ) else 0)

theorem fccSpike_length : fccSpike.length = 256 := by
  unfold fccSpike
  rw [List.length_map, List.length_range]

theorem fccSpike_nonneg : ∀ x ∈ fccSpike, 0 ≤ x := by
  intro x hx
  obtain ⟨i, _, rfl⟩ := List.mem_map.mp hx
  by_cases h : i = 73
  · rw [if_pos h]
    norm_num
  · rw [if_neg h]

theorem fccSpike_getD : fccSpike.getD 73 0 = 1 := by
  unfold fccSpike
  rw [getD_range_map 256 _ 0 73 (by omega), if_pos rfl]

theorem fccSpike_sentinelGet (j : ℕ) (hj : j ≠ 73) : sentinelGet fccSpike j = 0 := by
  rw [sentinelGet_eq]
  by_cases h : j < fccSpike.length
  · rw [if_pos h]
    have h2 : j < 256 := fccSpike_length ▸ h
    unfold fccSpike
    rw [getD_range_map 256 _ 0 j h2, if_neg hj]
  · rw [if_neg h]

theorem fccSpike_nbrSum : nbrSumAt fccNbr fccSpike 73 = 0 := by
  unfold nbrSumAt
  rw [fccNbr_eq, getD_range_map 256 fccRowF [] 73 (by omega)]
  refine List.sum_eq_zero ?_
  intro x hx
  obtain ⟨j, hj, rfl⟩ := List.mem_map.mp hx
  refine fccSpike_sentinelGet j ?_
  intro hje
  exact fccRowF_no_loop 73 (by omega) (hje ▸ hj)

set_option maxRecDepth 40000 in
theorem fccDeg_at_spike : fccDeg.getD 73 0 = 12 := by
  rw [fccDeg_eq, getD_range_map 256 fccDegF 0 73 (by omega)]
  decide

/-- Claim C3 counterexample: as stated the claim fails at the boundary of the
stability region.  At D = 1/12, lam = 0, dt = 1 the precondition
12*D*dt + lam*dt < 1 is violated (the sum equals 1), yet every non-negative
input keeps a non-negative pre-clamp update, so no witness field exists. -/
theorem claim_C3_counterexample :
    ¬ (∀ D lam dt : ℚ, 0 ≤ D → 0 ≤ lam → 0 ≤ dt →
        ¬(12 * D * dt + lam * dt < 1) →
        ∃ u : List ℚ, u.length = 256 ∧ (∀ x ∈ u, 0 ≤ x) ∧
          ∃ x ∈ lapPre fccNbr fccDeg (D : ℚ) lam dt u, x < 0) := by
  intro h
  obtain ⟨u, hlen, hu, x, hx, hneg⟩ :=
    h (1/12) 0 1 (by norm_num) le_rfl (by norm_num) (by norm_num)
  have hpos := lapPre_nonneg fccNbr fccDeg 12 (1/12) 0 1 u
    (fun i _ => fccDeg_cast_le i) (by norm_num) le_rfl (by norm_num) (by norm_num)
    hu x hx
  linarith

/-- Claim C3 (amended): under the strict stability bound the pre-clamp update
of the crystal_nav kernel is elementwise non-negative, so the final clamp
changes nothing; and any parameters strictly violating the bound
(12*D*dt + lam*dt > 1) admit a non-negative input whose pre-clamp update is
negative at some cell. -/
theorem claim_C3 :
    (∀ (D lam dt : ℚ) (u : List ℚ), 0 ≤ D → 0 ≤ lam → 0 ≤ dt →
        12 * D * dt + lam * dt < 1 → u.length = 256 → (∀ x ∈ u, 0 ≤ x) →
        (∀ x ∈ lapPre fccNbr fccDeg D lam dt u, 0 ≤ x)
          ∧ clampList (setAt (lapPre fccNbr fccDeg D lam dt u) beaconRank SOURCE_INTENSITY)
              = setAt (lapPre fccNbr fccDeg D lam dt u) beaconRank SOURCE_INTENSITY)
    ∧ (∀ D lam dt : ℚ, 0 ≤ D → 0 ≤ lam → 0 ≤ dt → 12 * D * dt + lam * dt > 1 →
        ∃ u : List ℚ, u.length = 256 ∧ (∀ x ∈ u, 0 ≤ x) ∧
          ∃ x ∈ lapPre fccNbr fccDeg D lam dt u, x < 0) := by
  constructor
  · intro D lam dt u hD hl hdt hstab hlen hu
    have hpos := lapPre_nonneg fccNbr fccDeg 12 D lam dt u
      (fun i _ => fccDeg_cast_le i) hD hl hdt (le_of_lt hstab) hu
    refine ⟨hpos, ?_⟩
    refine clampList_of_nonneg _ ?_
    intro x hx
    rcases List.mem_or_eq_of_mem_set hx with hmem | hval
    · exact hpos x hmem
    · rw [hval]
      norm_num [SOURCE_INTENSITY]
  · intro D lam dt hD hl hdt hstab
    refine ⟨fccSpike, fccSpike_length, fccSpike_nonneg, ?_⟩
    refine ⟨fccSpike.getD 73 0 + D * dt * (nbrSumAt fccNbr fccSpike 73
        - (fccDeg.getD 73 0 : ℚ) * fccSpike.getD 73 0)
      - lam * dt * fccSpike.getD 73 0, ?_, ?_⟩
    · unfold lapPre
      refine List.mem_map.mpr ⟨73, ?_, rfl⟩
      rw [List.mem_range, fccSpike_length]
      omega
    · rw [fccSpike_getD, fccSpike_nbrSum, fccDeg_at_spike]
      push_cast
      nlinarith

/-- Concrete instance of claim C3: the shipped beacon parameters satisfy the
bound and keep the all-ones field non-negative; the parameters D = 1, dt = 1
strictly violate it. -/
theorem claim_C3_witness :
    ((0 : ℚ) ≤ BEACON_D ∧ 12 * BEACON_D * 1 + BEACON_DECAY * 1 < 1
        ∧ (List.replicate 256 (1 : ℚ)).length = 256)
      ∧ (∀ x ∈ lapPre fccNbr fccDeg BEACON_D BEACON_DECAY 1 (List.replicate 256 (1 : ℚ)),
          0 ≤ x)
      ∧ (∃ u : List ℚ, u.length = 256 ∧ (∀ x ∈ u, 0 ≤ x) ∧
          ∃ x ∈ lapPre fccNbr fccDeg 1 0 1 u, x < 0) := by
  have h1 := (claim_C3.1 BEACON_D BEACON_DECAY 1 (List.replicate 256 (1 : ℚ))
    (by norm_num [BEACON_D]) (by norm_num [BEACON_DECAY]) (by norm_num)
    (by norm_num [BEACON_D, BEACON_DECAY]) (by rw [List.length_replicate])
    (fun x hx => by rw [List.eq_of_mem_replicate hx]; norm_num)).1
  have h2 := claim_C3.2 1 0 1 (by norm_num) le_rfl (by norm_num) (by norm_num)
  exact ⟨⟨by norm_num [BEACON_D], by norm_num [BEACON_D, BEACON_DECAY],
    by rw [List.length_replicate]⟩, h1, h2⟩

/- Section: exact mass conservation over the FCC adjacency (claim C2). -/

theorem fcc_indeg_src (b : ℕ) (hb : b < 256) :
    ((List.range 256).map (fun i => (fccNbr.getD i []).count b)).sum = fccDeg.getD b 0 := by
  rw [fccNbr_eq, fccDeg_eq, getD_range_map 256 fccDegF 0 b hb]
  have hpt : ∀ i ∈ List.range 256,
      (((List.range 256).map fccRowF).getD i []).count b = (fccRowF i).count b := by
    intro i hi
    rw [getD_range_map 256 fccRowF [] i (List.mem_range.mp hi)]
  rw [List.map_congr_left hpt]
  exact fcc_indeg b hb

theorem fccRowF_mem_le (a : ℕ) : ∀ b ∈ fccRowF a, b ≤ 256 := by
  intro b hb
  unfold fccRowF at hb
  obtain ⟨o, _, rfl⟩ := List.mem_map.mp hb
  unfold fccRkOpt
  by_cases hv : fccValid (offsetCoord (fccCellOfRank a) o)
  · rw [if_pos hv]
    simp only [Option.getD_some]
    exact le_of_lt (fccCellOfRank_fccRk _ hv).2
  · rw [if_neg hv]
    simp only [Option.getD_none]
    omega

/-- Claim C2: the FCC adjacency built by _build_fcc_adjacency is symmetric,
its degree array counts the non-sentinel row entries, and over it the
graph-Laplacian step with zero decay and no source stamp conserves total
field mass exactly for every non-negative field within the stability bound
(the clamp changes nothing there). -/
theorem claim_C2 :
    (∀ a b : ℕ, a < 256 → b < 256 →
        (b ∈ fccNbr.getD a [] ↔ a ∈ fccNbr.getD b []))
      ∧ (∀ a : ℕ, a < 256 →
          fccDeg.getD a 0 = (fccNbr.getD a []).countP (fun b => decide (¬ b = 256)))
      ∧ (∀ (D dt : ℚ) (u : List ℚ), 0 ≤ D → 0 ≤ dt → 12 * D * dt < 1 →
          u.length = 256 → (∀ x ∈ u, 0 ≤ x) →
          (clampList (lapPre fccNbr fccDeg D 0 dt u)).sum = u.sum) := by
  refine ⟨?_, ?_, ?_⟩
  · intro a b ha hb
    rw [fccNbr_eq, getD_range_map 256 fccRowF [] a ha, getD_range_map 256 fccRowF [] b hb]
    exact fccRowF_sym a b ha hb
  · intro a ha
    rw [fccNbr_eq, fccDeg_eq, getD_range_map 256 fccDegF 0 a ha,
      getD_range_map 256 fccRowF [] a ha, fccDegF_countP]
    refine List.countP_congr ?_
    intro b hbmem
    have hble := fccRowF_mem_le a b hbmem
    simp only [decide_eq_true_eq]
    omega
  · intro D dt u hD hdt hstab hlen hu
    have hclamp : clampList (lapPre fccNbr fccDeg D 0 dt u) = lapPre fccNbr fccDeg D 0 dt u := by
      refine clampList_of_nonneg _ ?_
      exact lapPre_nonneg fccNbr fccDeg 12 D 0 dt u (fun i _ => fccDeg_cast_le i)
        hD le_rfl hdt (by linarith) hu
    rw [hclamp]
    refine lapPre_sum_conserved fccNbr fccDeg D dt u ?_
    intro b hb
    rw [hlen] at hb ⊢
    exact fcc_indeg_src b hb

/-- Concrete instance of claim C2 at the all-ones field with D = 1/100,
dt = 1. -/
theorem claim_C2_witness :
    ((0 : ℚ) ≤ 1/100 ∧ 12 * (1/100 : ℚ) * 1 < 1
        ∧ (List.replicate 256 (1 : ℚ)).length = 256)
      ∧ (clampList (lapPre fccNbr fccDeg (1/100) 0 1 (List.replicate 256 (1 : ℚ)))).sum
          = (List.replicate 256 (1 : ℚ)).sum :=
  ⟨⟨by norm_num, by norm_num, by rw [List.length_replicate]⟩,
    claim_C2.2.2 (1/100) 1 (List.replicate 256 (1 : ℚ)) (by norm_num) (by norm_num)
      (by norm_num) (by rw [List.length_replicate])
      (fun x hx => by rw [List.eq_of_mem_replicate hx]; norm_num)⟩

/- Section: heat_seeker rectangular-grid kernel and its graph form.  The
   16x16 grid is stored row-major (index i = y*16 + x); np.pad(prev, 1,
   mode="edge") replicates border values, so each directional read clips the
   coordinate at the border, i.e. reads the cell itself when the neighbour
   is outside. -/

/-- Edge-replicated north read: row y-1 clipped at the top border. -/
def hsNorth (i : ℕ) : ℕ := if i / 16 = 0 then i else i - 16

/-- Edge-replicated south read: row y+1 clipped at the bottom border. -/
def hsSouth (i : ℕ) : ℕ := if i / 16 = 15 then i else i + 16

/-- Edge-replicated west read: column x-1 clipped at the left border. -/
def hsWest (i : ℕ) : ℕ := if i % 16 = 0 then i else i - 1

/-- Edge-replicated east read: column x+1 clipped at the right border. -/
def hsEast (i : ℕ) : ℕ := if i % 16 = 15 then i else i + 1

/-- Pre-clamp heat update of heat_seeker.diffusion_step: 4-connected
discrete Laplacian with edge padding, D = 0.1. -/
def heatPre (dt : ℚ) (u : List ℚ) : List ℚ :=
  (List.range 256).map (fun i =>
    u.getD i 0 + (1/10) * dt * ((u.getD (hsNorth i) 0 + u.getD (hsSouth i) 0
      + u.getD (hsWest i) 0 + u.getD (hsEast i) 0) - 4 * u.getD i 0))

/-- Embedding of heat_seeker.diffusion_step: Euler update, stamp the heat
source at (14, 14) (flat index 238), clamp to zero. -/
def diffusion_step (dt : ℚ) (u : List ℚ) : List ℚ :=
  clampList (setAt (heatPre dt u) 238 SOURCE_INTENSITY)

/-- Modelled from the spec: the Square4 absorb-boundary adjacency row of the
16x16 grid (the builder itself lives in the Rust murk-space crate, outside
the Python sources); absent neighbours map to the sentinel rank 256, in
north, south, west, east order. -/
def sq4Row (i : ℕ) : List ℕ :=
  [if i / 16 = 0 then 256 else i - 16, if i / 16 = 15 then 256 else i + 16,
   if i % 16 = 0 then 256 else i - 1, if i % 16 = 15 then 256 else i + 1]

/-- Modelled from the spec: per-cell degree of the Square4 absorb adjacency,
the count of in-bounds neighbours. -/
def sq4DegF (i : ℕ) : ℕ :=
  (if i / 16 = 0 then 0 else 1) + (if i / 16 = 15 then 0 else 1)
    + (if i % 16 = 0 then 0 else 1) + (if i % 16 = 15 then 0 else 1)

/-- Modelled from the spec: the Square4 absorb neighbour table. -/
def sq4Nbr : List (List ℕ) := (List.range 256).map sq4Row

/-- Modelled from the spec: the Square4 absorb degree array. -/
def sq4Deg : List ℕ := (List.range 256).map sq4DegF

/-- Claim C4: on every 16x16 field, heat_seeker's edge-padded rectangular
kernel equals the sentinel-padded graph-Laplacian kernel instantiated on the
Square4 absorb adjacency with the same D, dt, zero decay, the same source
stamp and the same clamp. -/
theorem claim_C4 (dt : ℚ) (u : List ℚ) (hlen : u.length = 256) :
    diffusion_step dt u
      = clampList (setAt (lapPre sq4Nbr sq4Deg (1/10) 0 dt u) 238 SOURCE_INTENSITY) := by
  unfold diffusion_step
  suffices h : heatPre dt u = lapPre sq4Nbr sq4Deg (1/10) 0 dt u by rw [h]
  unfold heatPre lapPre
  rw [hlen]
  refine List.map_congr_left ?_
  intro i hi
  rw [List.mem_range] at hi
  have hrow : sq4Nbr.getD i [] = sq4Row i := getD_range_map 256 sq4Row [] i hi
  have hdeg : sq4Deg.getD i 0 = sq4DegF i := getD_range_map 256 sq4DegF 0 i hi
  unfold nbrSumAt
  rw [hrow, hdeg]
  unfold sq4Row sq4DegF hsNorth hsSouth hsWest hsEast
  have hn : i - 16 < 256 := by omega
  have hw : i - 1 < 256 := by omega
  simp only [List.map_cons, List.map_nil, List.sum_cons, List.sum_nil,
    apply_ite (sentinelGet u), sentinelGet_eq, hlen, hn, hw, if_true,
    lt_self_iff_false, if_false]
  split_ifs <;> first
    | (exfalso; omega)
    | (push_cast; ring1)

/-- Concrete instance of claim C4 at the zero field. -/
theorem claim_C4_witness :
    (List.replicate 256 (0 : ℚ)).length = 256
      ∧ diffusion_step 1 (List.replicate 256 (0 : ℚ))
          = clampList (setAt (lapPre sq4Nbr sq4Deg (1/10) 0 1 (List.replicate 256 (0 : ℚ)))
              238 SOURCE_INTENSITY) :=
  ⟨by rw [List.length_replicate],
    claim_C4 1 (List.replicate 256 (0 : ℚ)) (by rw [List.length_replicate])⟩

/- Section: degree accounting of the two builders (claim C5). -/

/-- Number of undirected FCC edges, counted as adjacent pairs a < b. -/
def fccEdgeCount : ℕ :=
  ((List.range 256).map (fun a =>
    ((fccNbr.getD a []).filter (fun b => decide (a < b ∧ b < 256))).length)).sum

/-- Number of undirected layered-hex edges, counted as adjacent pairs a < b. -/
def lhEdgeCount : ℕ :=
  ((List.range 108).map (fun a =>
    ((lhNbr.getD a []).filter (fun b => decide (a < b ∧ b < 108))).length)).sum

/-- Claim C5: for both builders the degree array sums to twice the number of
undirected edges, and every interior cell reaches the maximum connectivity:
12 on the 8x8x8 FCC lattice, 8 (6 hex + 2 line) on the layered-hex product
space. -/
theorem claim_C5 :
    fccDeg.sum = 2 * fccEdgeCount
      ∧ (∀ c : ℤ × ℤ × ℤ, fccValid c →
          1 ≤ c.1 → c.1 < 7 → 1 ≤ c.2.1 → c.2.1 < 7 → 1 ≤ c.2.2 → c.2.2 < 7 →
          fccDeg.getD (fccRk c) 0 = 12)
      ∧ lhDeg.sum = 2 * lhEdgeCount
      ∧ (∀ c : ℤ × ℤ × ℤ, lhValid c →
          1 ≤ c.1 → c.1 < 5 → 1 ≤ c.2.1 → c.2.1 < 5 → 0 < c.2.2 → c.2.2 < 2 →
          lhDeg.getD (lhRk c) 0 = 8) := by
  refine ⟨?_, ?_, ?_, ?_⟩
  · have hrows : ∀ a ∈ List.range 256,
        (fun a => ((fccNbr.getD a []).filter (fun b => decide (a < b ∧ b < 256))).length) a
          = (fun a => ((fccRowF a).filter (fun b => decide (a < b ∧ b < 256))).length) a := by
      intro a ha
      simp only
      rw [fccNbr_eq, getD_range_map 256 fccRowF [] a (List.mem_range.mp ha)]
    have h1 : fccDeg.sum = ((List.range 256).map fccDegF).sum :=
      congrArg List.sum fccDeg_eq
    have h2 : fccEdgeCount = ((List.range 256).map (fun a =>
        ((fccRowF a).filter (fun b => decide (a < b ∧ b < 256))).length)).sum :=
      congrArg List.sum (List.map_congr_left hrows)
    exact h1.trans ((sum_deg_twice_edges 256 fccRowF fccDegF
      (fun a _ => fccDegF_countP a) fccRowF_sym fccRowF_no_loop
      (fun a b _ hb => fccRowF_count_le_one a b hb)).trans
        (congrArg (fun k => 2 * k) h2.symm))
  · intro c hv hx hx2 hy hy2 hz hz2
    obtain ⟨_, hlt⟩ := fccCellOfRank_fccRk c hv
    exact ((congrArg (fun l => List.getD l (fccRk c) 0) fccDeg_eq).trans
      (getD_range_map 256 fccDegF 0 (fccRk c) hlt)).trans
        (fccDegF_interior c hv hx hx2 hy hy2 hz hz2)
  · have hrows : ∀ a ∈ List.range 108,
        (fun a => ((lhNbr.getD a []).filter (fun b => decide (a < b ∧ b < 108))).length) a
          = (fun a => ((lhRow (lhCellOfRank a)).filter
              (fun b => decide (a < b ∧ b < 108))).length) a := by
      intro a ha
      simp only
      rw [lhNbr_eq, getD_range_map 108 (fun r => lhRow (lhCellOfRank r)) [] a
        (List.mem_range.mp ha)]
    have h1 : lhDeg.sum
        = ((List.range 108).map (fun r => (lhFound (lhCellOfRank r)).length)).sum :=
      congrArg List.sum lhDeg_eq
    have h2 : lhEdgeCount = ((List.range 108).map (fun a =>
        ((lhRow (lhCellOfRank a)).filter (fun b => decide (a < b ∧ b < 108))).length)).sum :=
      congrArg List.sum (List.map_congr_left hrows)
    exact h1.trans ((sum_deg_twice_edges 108 (fun r => lhRow (lhCellOfRank r))
      (fun r => (lhFound (lhCellOfRank r)).length)
      (fun a ha => lhDegF_countP a ha) lhRowF_sym lhRowF_no_loop
      lhRowF_count_le_one).trans (congrArg (fun k => 2 * k) h2.symm))
  · intro c hv hq hq2 hr hr2 hz hz2
    obtain ⟨_, hlt⟩ := lhCellOfRank_lhRk c hv
    exact ((congrArg (fun l => List.getD l (lhRk c) 0) lhDeg_eq).trans
      (getD_range_map 108 (fun r => (lhFound (lhCellOfRank r)).length) 0 (lhRk c) hlt)).trans
        (lhDegF_interior c hv hq hq2 hr hr2 hz hz2)

/-- Concrete instance of claim C5 at the interior cells (2, 2, 2) of the FCC
lattice and (2, 2, 1) of the layered-hex space. -/
theorem claim_C5_witness :
    (fccValid (2, 2, 2) ∧ fccDeg.getD (fccRk (2, 2, 2)) 0 = 12)
      ∧ (lhValid (2, 2, 1) ∧ lhDeg.getD (lhRk (2, 2, 1)) 0 = 8) :=
  ⟨⟨by decide, claim_C5.2.1 (2, 2, 2) (by decide) (by decide) (by decide) (by decide)
      (by decide) (by decide) (by decide)⟩,
   ⟨by decide, claim_C5.2.2.2 (2, 2, 1) (by decide) (by decide) (by decide) (by decide)
      (by decide) (by decide) (by decide)⟩⟩

/- Section: import-time stability assertions (claim C9).  Both example
   modules run a __debug__ assert block at module load, before any world or
   propagator is constructed; a failing assert raises and the module is
   rejected. -/

/-- Embedding of the crystal_nav assert condition 12*D*1.0 + decay < 1.0
(the stability invariant at max_degree = 12 and the configured dt = 1). -/
def crystalNavStabilityCheck (D decay : ℚ) : Bool := decide (12 * D * 1 + decay < 1)

/-- Embedding of the layered_hex assert condition 8*D*1.0 + decay < 1.0. -/
def layeredHexStabilityCheck (D decay : ℚ) : Bool := decide (8 * D * 1 + decay < 1)

/-- Module load of crystal_nav: both stability asserts must pass, else
the module import raises AssertionError before anything is constructed. -/
def crystalNavModuleInit (beaconD beaconDecay radD radDecay : ℚ) : Except String Unit :=
  if crystalNavStabilityCheck beaconD beaconDecay then
    if crystalNavStabilityCheck radD radDecay then Except.ok ()
    else Except.error "radiation weights go negative"
  else Except.error "beacon weights go negative"

/-- Module load of layered_hex. -/
def layeredHexModuleInit (D decay : ℚ) : Except String Unit :=
  if layeredHexStabilityCheck D decay then Except.ok ()
  else Except.error "beacon weights go negative"

/-- Claim C9: parameters violating the stability invariant
max_degree*D*dt + lam*dt < 1 (dt = 1 in both examples) make module load fail
before any tick runs, the checked condition is exactly the invariant, and
the shipped constants pass. -/
theorem claim_C9 :
    (∀ D decay radD radDecay : ℚ, ¬(12 * D * 1 + decay * 1 < 1) →
        ∃ msg, crystalNavModuleInit D decay radD radDecay = Except.error msg)
      ∧ (∀ D decay radD radDecay : ℚ, ¬(12 * radD * 1 + radDecay * 1 < 1) →
          ∃ msg, crystalNavModuleInit D decay radD radDecay = Except.error msg)
      ∧ (∀ D decay : ℚ, ¬(8 * D * 1 + decay * 1 < 1) →
          ∃ msg, layeredHexModuleInit D decay = Except.error msg)
      ∧ (∀ D decay : ℚ, crystalNavStabilityCheck D decay = true ↔ 12 * D * 1 + decay * 1 < 1)
      ∧ (∀ D decay : ℚ, layeredHexStabilityCheck D decay = true ↔ 8 * D * 1 + decay * 1 < 1)
      ∧ crystalNavModuleInit BEACON_D BEACON_DECAY RADIATION_D RADIATION_DECAY = Except.ok ()
      ∧ layeredHexModuleInit BEACON_D BEACON_DECAY = Except.ok () := by
  refine ⟨?_, ?_, ?_, ?_, ?_, ?_, ?_⟩
  · intro D decay radD radDecay h
    refine ⟨"beacon weights go negative", ?_⟩
    unfold crystalNavModuleInit crystalNavStabilityCheck
    rw [decide_eq_false (show ¬(12 * D * 1 + decay < 1) from fun hc => h (by linarith))]
    rfl
  · intro D decay radD radDecay h
    have h2 : ¬(12 * radD * 1 + radDecay < 1) := fun hc => h (by linarith)
    by_cases hb : 12 * D * 1 + decay < 1
    · refine ⟨"radiation weights go negative", ?_⟩
      unfold crystalNavModuleInit crystalNavStabilityCheck
      rw [decide_eq_true hb, decide_eq_false h2]
      rfl
    · refine ⟨"beacon weights go negative", ?_⟩
      unfold crystalNavModuleInit crystalNavStabilityCheck
      rw [decide_eq_false hb]
      rfl
  · intro D decay h
    refine ⟨"beacon weights go negative", ?_⟩
    unfold layeredHexModuleInit layeredHexStabilityCheck
    rw [decide_eq_false (show ¬(8 * D * 1 + decay < 1) from fun hc => h (by linarith))]
    rfl
  · intro D decay
    unfold crystalNavStabilityCheck
    constructor
    · intro h
      have h2 := of_decide_eq_true h
      linarith
    · intro h
      exact decide_eq_true (by linarith)
  · intro D decay
    unfold layeredHexStabilityCheck
    constructor
    · intro h
      have h2 := of_decide_eq_true h
      linarith
    · intro h
      exact decide_eq_true (by linarith)
  · unfold crystalNavModuleInit crystalNavStabilityCheck
    rw [decide_eq_true (by norm_num [BEACON_D, BEACON_DECAY] :
        12 * BEACON_D * 1 + BEACON_DECAY < 1),
      decide_eq_true (by norm_num [RADIATION_D, RADIATION_DECAY] :
        12 * RADIATION_D * 1 + RADIATION_DECAY < 1)]
    rfl
  · unfold layeredHexModuleInit layeredHexStabilityCheck
    rw [decide_eq_true (by norm_num [BEACON_D, BEACON_DECAY] :
        8 * BEACON_D * 1 + BEACON_DECAY < 1)]
    rfl

/-- Concrete instance of claim C9: parameters D = 1, decay = 0 are rejected
at module load. -/
theorem claim_C9_witness :
    ¬((12 : ℚ) * 1 * 1 + 0 * 1 < 1)
      ∧ (∃ msg, crystalNavModuleInit 1 0 RADIATION_D RADIATION_DECAY = Except.error msg) :=
  ⟨by norm_num, claim_C9.1 1 0 RADIATION_D RADIATION_DECAY (by norm_num)⟩

/-! ### Batched vectorized environment (batched_vec_env.py) -/

/-- Abstract interface of the Rust BatchedWorld engine as BatchedVecEnv uses
it: step_and_observe steps every world with its command list and returns the
per-world tick ids together with the flat observation buffer it filled;
observe_all re-extracts the flat observations; reset_world reseeds one world
and reset_all reseeds every world. Engine state and commands are abstract. -/
structure EngineOps (σ : Type) where
  stepAndObserve : σ → List (List ℕ) → σ × List ℕ × List ℚ
  observeAll : σ → σ × List ℚ
  resetWorld : σ → ℕ → ℤ → σ
  resetAll : σ → List ℤ → σ

/-- The subclass hook methods of BatchedVecEnv (the defaults are overridden
per RL task, so they are abstract here). -/
structure EnvHooks where
  actionsToCommands : List ℕ → List (List ℕ)
  computeRewards : List (List ℚ) → List ℕ → List ℚ
  checkTerminated : List (List ℚ) → List ℕ → List Bool
  checkTruncated : List (List ℚ) → List ℕ → List Bool

/-- One engine call, as recorded in a call trace. -/
inductive ECall where
  | stepAndObserve (cmds : List (List ℕ)) : ECall
  | observeAll : ECall
  | resetWorld (i : ℕ) (seed : ℤ) : ECall
  | resetAll (seeds : List ℤ) : ECall
deriving DecidableEq

/-- Discriminator for step_and_observe calls. -/
def ECall.isStepAndObserve : ECall → Bool
  | ECall.stepAndObserve _ => true
  | _ => false

/-- Discriminator for observe_all calls. -/
def ECall.isObserveAll : ECall → Bool
  | ECall.observeAll => true
  | _ => false

/-- engine.step_and_observe(commands, obs_flat, mask_flat), with the call
appended to the trace. -/
def eStepAndObserve {σ : Type} (E : EngineOps σ) (cmds : List (List ℕ))
    (st : σ × List ECall) : (σ × List ECall) × List ℕ × List ℚ :=
  (((E.stepAndObserve st.1 cmds).1, st.2 ++ [ECall.stepAndObserve cmds]),
    (E.stepAndObserve st.1 cmds).2)

/-- engine.observe_all(obs_flat, mask_flat), with the call appended to the
trace. -/
def eObserveAll {σ : Type} (E : EngineOps σ) (st : σ × List ECall) :
    (σ × List ECall) × List ℚ :=
  (((E.observeAll st.1).1, st.2 ++ [ECall.observeAll]), (E.observeAll st.1).2)

/-- engine.reset_world(i, seed), with the call appended to the trace. -/
def eResetWorld {σ : Type} (E : EngineOps σ) (i : ℕ) (seed : ℤ)
    (st : σ × List ECall) : σ × List ECall :=
  (E.resetWorld st.1 i seed, st.2 ++ [ECall.resetWorld i seed])

/-- engine.reset_all(seeds), with the call appended to the trace. -/
def eResetAll {σ : Type} (E : EngineOps σ) (seeds : List ℤ)
    (st : σ × List ECall) : σ × List ECall :=
  (E.resetAll st.1 seeds, st.2 ++ [ECall.resetAll seeds])

/-- obs_flat.reshape(num_envs, obs_per_world): row i is the slice
[i·w, (i+1)·w) of the flat buffer. -/
def reshape (n w : ℕ) (flat : List ℚ) : List (List ℚ) :=
  (List.range n).map fun i => (List.range w).map fun j => flat.getD (i * w + j) 0

/-- The single batched Rust call at the top of BatchedVecEnv.step, made on a
fresh trace. -/
def bveObsStep {σ : Type} (E : EngineOps σ) (H : EnvHooks) (s : σ)
    (a : List ℕ) : (σ × List ECall) × List ℕ × List ℚ :=
  eStepAndObserve E (H.actionsToCommands a) (s, [])

/-- The per-world tick ids returned by step_and_observe and stored in
self._tick_ids. -/
def bveTickIds {σ : Type} (E : EngineOps σ) (H : EnvHooks) (s : σ)
    (a : List ℕ) : List ℕ :=
  (bveObsStep E H s a).2.1

/-- The (num_envs, obs_per_world) view of the flat buffer right after
step_and_observe — the observations before any auto-reset. -/
def bveObsPre {σ : Type} (E : EngineOps σ) (H : EnvHooks) (n w : ℕ) (s : σ)
    (a : List ℕ) : List (List ℚ) :=
  reshape n w (bveObsStep E H s a).2.2

/-- self._rewards[:] = self._compute_rewards(obs, self._tick_ids). -/
def bveRewards {σ : Type} (E : EngineOps σ) (H : EnvHooks) (n w : ℕ) (s : σ)
    (a : List ℕ) : List ℚ :=
  H.computeRewards (bveObsPre E H n w s a) (bveTickIds E H s a)

/-- self._terminateds[:] = self._check_terminated(obs, self._tick_ids). -/
def bveTerm {σ : Type} (E : EngineOps σ) (H : EnvHooks) (n w : ℕ) (s : σ)
    (a : List ℕ) : List Bool :=
  H.checkTerminated (bveObsPre E H n w s a) (bveTickIds E H s a)

/-- self._truncateds[:] = self._check_truncated(obs, self._tick_ids). -/
def bveTrunc {σ : Type} (E : EngineOps σ) (H : EnvHooks) (n w : ℕ) (s : σ)
    (a : List ℕ) : List Bool :=
  H.checkTruncated (bveObsPre E H n w s a) (bveTickIds E H s a)

/-- needs_reset = self._terminateds | self._truncateds, a length-num_envs
boolean vector. -/
def bveNeedsReset {σ : Type} (E : EngineOps σ) (H : EnvHooks) (n w : ℕ)
    (s : σ) (a : List ℕ) : List Bool :=
  (List.range n).map fun i =>
    ((bveTerm E H n w s a).getD i false || (bveTrunc E H n w s a).getD i false)

/-- The auto-reset loop of BatchedVecEnv.step: for every world index i with
needs_reset[i], snapshot obs[i] into final_observations[i] and call
engine.reset_world(i, int(tick_ids[i])). -/
def resetLoop {σ : Type} (E : EngineOps σ) (flag : List Bool)
    (obs : List (List ℚ)) (ticks : List ℕ) :
    List ℕ → (σ × List ECall) × List (Option (List ℚ)) →
      (σ × List ECall) × List (Option (List ℚ))
  | [], acc => acc
  | i :: rest, acc =>
      if flag.getD i false then
        resetLoop E flag obs ticks rest
          (eResetWorld E i (Int.ofNat (ticks.getD i 0)) acc.1,
            acc.2.set i (some (obs.getD i [])))
      else resetLoop E flag obs ticks rest acc

/-- The auto-reset loop of BatchedVecEnv.step over all world indices,
starting from the post-step state and final_observations = [None]*num_envs. -/
def bveLoop {σ : Type} (E : EngineOps σ) (H : EnvHooks) (n w : ℕ) (s : σ)
    (a : List ℕ) : (σ × List ECall) × List (Option (List ℚ)) :=
  resetLoop E (bveNeedsReset E H n w s a) (bveObsPre E H n w s a)
    (bveTickIds E H s a) (List.range n)
    ((bveObsStep E H s a).1, List.replicate n none)

/-- What one BatchedVecEnv.step call returns (with info reduced to the
final_observation list and the tick ids). -/
structure StepOut where
  obs : List (List ℚ)
  rewards : List ℚ
  terminateds : List Bool
  truncateds : List Bool
  finalObservation : List (Option (List ℚ))
  tickIds : List ℕ

/-- BatchedVecEnv.step: one step_and_observe, hook evaluation, the auto-reset
loop, and — only when some world was flagged — one observe_all that refreshes
the returned observation batch. -/
def bveStep {σ : Type} (E : EngineOps σ) (H : EnvHooks) (n w : ℕ) (s : σ)
    (a : List ℕ) : (σ × List ECall) × StepOut :=
  if (bveNeedsReset E H n w s a).any (fun b => b) then
    ((eObserveAll E (bveLoop E H n w s a).1).1,
      { obs := reshape n w (eObserveAll E (bveLoop E H n w s a).1).2,
        rewards := bveRewards E H n w s a,
        terminateds := bveTerm E H n w s a,
        truncateds := bveTrunc E H n w s a,
        finalObservation := (bveLoop E H n w s a).2,
        tickIds := bveTickIds E H s a })
  else
    ((bveLoop E H n w s a).1,
      { obs := bveObsPre E H n w s a,
        rewards := bveRewards E H n w s a,
        terminateds := bveTerm E H n w s a,
        truncateds := bveTrunc E H n w s a,
        finalObservation := (bveLoop E H n w s a).2,
        tickIds := bveTickIds E H s a })

/-- The trace of the auto-reset loop: one reset_world call per flagged index,
in index order, appended to the incoming trace. -/
theorem resetLoop_log {σ : Type} (E : EngineOps σ) (flag : List Bool)
    (obs : List (List ℚ)) (ticks : List ℕ) (idxs : List ℕ)
    (acc : (σ × List ECall) × List (Option (List ℚ))) :
    (resetLoop E flag obs ticks idxs acc).1.2
      = acc.1.2 ++ (idxs.filter fun i => flag.getD i false).map
          (fun i => ECall.resetWorld i (Int.ofNat (ticks.getD i 0))) := by
  induction idxs generalizing acc with
  | nil => simp [resetLoop]
  | cons i rest ih =>
      simp only [resetLoop]
      by_cases h : flag.getD i false = true
      · rw [if_pos h, ih]
        simp only [List.filter_cons]
        rw [if_pos h]
        simp [eResetWorld, List.append_assoc]
      · rw [if_neg h, ih]
        simp only [List.filter_cons]
        rw [if_neg h]

/-- The final_observations list built by the auto-reset loop is a fold of
List.set over the flagged indices. -/
theorem resetLoop_fo {σ : Type} (E : EngineOps σ) (flag : List Bool)
    (obs : List (List ℚ)) (ticks : List ℕ) (idxs : List ℕ)
    (acc : (σ × List ECall) × List (Option (List ℚ))) :
    (resetLoop E flag obs ticks idxs acc).2
      = idxs.foldl
          (fun fo i => if flag.getD i false then fo.set i (some (obs.getD i []))
            else fo) acc.2 := by
  induction idxs generalizing acc with
  | nil => simp [resetLoop]
  | cons i rest ih =>
      simp only [resetLoop, List.foldl_cons]
      by_cases h : flag.getD i false = true
      · rw [if_pos h, if_pos h, ih]
      · rw [if_neg h, if_neg h, ih]

/-- Reading one slot of a fold of guarded List.set updates over a list of
indices. -/
theorem foldl_set_getD (flag : List Bool) (obs : List (List ℚ))
    (idxs : List ℕ) (fo : List (Option (List ℚ))) (j : ℕ) :
    (idxs.foldl
        (fun fo i => if flag.getD i false then fo.set i (some (obs.getD i []))
          else fo) fo).getD j none
      = if j ∈ idxs ∧ flag.getD j false = true ∧ j < fo.length
          then some (obs.getD j []) else fo.getD j none := by
  induction idxs generalizing fo with
  | nil => simp
  | cons i rest ih =>
      rw [List.foldl_cons, ih]
      by_cases hi : flag.getD i false = true
      · rw [if_pos hi, List.length_set]
        by_cases hj : j = i
        · subst hj
          by_cases hl : j < fo.length
          · have hset : (fo.set j (some (obs.getD j []))).getD j none
                = some (obs.getD j []) := by
              rw [List.getD_eq_getElem?_getD, List.getElem?_set_self hl]
              rfl
            rw [hset, ite_self, if_pos ⟨List.mem_cons_self j rest, hi, hl⟩]
          · have hc1 : ¬(j ∈ rest ∧ flag.getD j false = true ∧ j < fo.length) :=
              fun hh => hl hh.2.2
            have hc2 : ¬(j ∈ j :: rest ∧ flag.getD j false = true ∧ j < fo.length) :=
              fun hh => hl hh.2.2
            have hn1 : (fo.set j (some (obs.getD j []))).length ≤ j := by
              rw [List.length_set]
              omega
            have hn2 : fo.length ≤ j := by omega
            have e1 : (fo.set j (some (obs.getD j []))).getD j none = none := by
              rw [List.getD_eq_getElem?_getD (fo.set j (some (obs.getD j []))) j none,
                List.getElem?_eq_none hn1]
              rfl
            have e2 : fo.getD j none = none := by
              rw [List.getD_eq_getElem?_getD fo j none, List.getElem?_eq_none hn2]
              rfl
            rw [if_neg hc1, if_neg hc2, e1, e2]
        · have hset : (fo.set i (some (obs.getD i []))).getD j none
              = fo.getD j none := by
            rw [List.getD_eq_getElem?_getD (fo.set i (some (obs.getD i []))) j none,
              List.getD_eq_getElem?_getD fo j none,
              List.getElem?_set_ne (fun he => hj he.symm)]
          rw [hset]
          refine if_congr ?_ rfl rfl
          constructor
          · rintro ⟨hm, hc⟩
            exact ⟨List.mem_cons_of_mem _ hm, hc⟩
          · rintro ⟨hm, hc⟩
            rcases List.mem_cons.mp hm with he | hm2
            · exact absurd he hj
            · exact ⟨hm2, hc⟩
      · rw [if_neg hi]
        refine if_congr ?_ rfl rfl
        constructor
        · rintro ⟨hm, hc⟩
          exact ⟨List.mem_cons_of_mem _ hm, hc⟩
        · rintro ⟨hm, hc⟩
          rcases List.mem_cons.mp hm with he | hm2
          · exact absurd (he ▸ hc.1) hi
          · exact ⟨hm2, hc⟩

/-- The trace after the auto-reset loop: the opening step_and_observe call,
then one reset_world per flagged index in index order. -/
theorem bveLoop_log {σ : Type} (E : EngineOps σ) (H : EnvHooks) (n w : ℕ)
    (s : σ) (a : List ℕ) :
    (bveLoop E H n w s a).1.2
      = [ECall.stepAndObserve (H.actionsToCommands a)]
        ++ ((List.range n).filter fun i => (bveNeedsReset E H n w s a).getD i false).map
            (fun i => ECall.resetWorld i (Int.ofNat ((bveTickIds E H s a).getD i 0))) := by
  unfold bveLoop
  rw [resetLoop_log]
  rfl

/-- The full trace of one BatchedVecEnv.step call: the loop trace, with one
trailing observe_all exactly when some world was flagged. -/
theorem bveStep_log {σ : Type} (E : EngineOps σ) (H : EnvHooks) (n w : ℕ)
    (s : σ) (a : List ℕ) :
    (bveStep E H n w s a).1.2
      = (bveLoop E H n w s a).1.2
        ++ (if (bveNeedsReset E H n w s a).any (fun b => b)
              then [ECall.observeAll] else []) := by
  by_cases h : (bveNeedsReset E H n w s a).any (fun b => b) = true
  · unfold bveStep
    rw [if_pos h, if_pos h]
    rfl
  · unfold bveStep
    rw [if_neg h, if_neg h, List.append_nil]

/-- The returned final_observation list is the one assembled by the loop. -/
theorem bveStep_finalObservation {σ : Type} (E : EngineOps σ) (H : EnvHooks)
    (n w : ℕ) (s : σ) (a : List ℕ) :
    (bveStep E H n w s a).2.finalObservation = (bveLoop E H n w s a).2 := by
  unfold bveStep
  by_cases h : (bveNeedsReset E H n w s a).any (fun b => b) = true
  · rw [if_pos h]
  · rw [if_neg h]

/-- A list of reset_world calls contains no call of another kind. -/
theorem countP_resetWorld_map (p : ECall → Bool)
    (hp : ∀ i sd, p (ECall.resetWorld i sd) = false) (l : List ℕ)
    (t : ℕ → ℤ) :
    (l.map fun i => ECall.resetWorld i (t i)).countP p = 0 := by
  rw [List.countP_eq_zero]
  intro x hx
  rcases List.mem_map.mp hx with ⟨i, _, rfl⟩
  simp [hp]

/-- One slot of the loop's final_observation list: the pre-reset observation
slice when the world is flagged, None otherwise. -/
theorem bveLoop_fo_getD {σ : Type} (E : EngineOps σ) (H : EnvHooks)
    (n w : ℕ) (s : σ) (a : List ℕ) (i : ℕ) (hi : i < n) :
    (bveLoop E H n w s a).2.getD i none
      = if (bveNeedsReset E H n w s a).getD i false = true
          then some ((bveObsPre E H n w s a).getD i []) else none := by
  unfold bveLoop
  rw [resetLoop_fo, foldl_set_getD]
  by_cases hf : (bveNeedsReset E H n w s a).getD i false = true
  · rw [if_pos ⟨List.mem_range.mpr hi, hf, by simpa using hi⟩, if_pos hf]
  · rw [if_neg (fun hc => hf hc.2.1), if_neg hf]
    have h0 : (List.replicate n (none : Option (List ℚ))).getD i none = none := by
      rw [List.getD_eq_getElem?_getD, List.getElem?_replicate]
      split <;> rfl
    exact h0

/-- Claim C6: every BatchedVecEnv.step call makes exactly one
step_and_observe engine call, and exactly one observe_all when at least one
world was flagged terminated or truncated in that call, zero otherwise. -/
theorem claim_C6 {σ : Type} (E : EngineOps σ) (H : EnvHooks) (n w : ℕ)
    (s : σ) (a : List ℕ) :
    (bveStep E H n w s a).1.2.countP ECall.isStepAndObserve = 1
      ∧ (bveStep E H n w s a).1.2.countP ECall.isObserveAll
          = if (bveNeedsReset E H n w s a).any (fun b => b) then 1 else 0 := by
  have hm1 := countP_resetWorld_map ECall.isStepAndObserve (fun _ _ => rfl)
    ((List.range n).filter fun i => (bveNeedsReset E H n w s a).getD i false)
    (fun i => Int.ofNat ((bveTickIds E H s a).getD i 0))
  have hm2 := countP_resetWorld_map ECall.isObserveAll (fun _ _ => rfl)
    ((List.range n).filter fun i => (bveNeedsReset E H n w s a).getD i false)
    (fun i => Int.ofNat ((bveTickIds E H s a).getD i 0))
  have hlog := bveStep_log E H n w s a
  rw [bveLoop_log] at hlog
  by_cases h : (bveNeedsReset E H n w s a).any (fun b => b) = true
  · rw [if_pos h] at hlog
    rw [hlog, if_pos h]
    constructor
    · rw [List.countP_append, List.countP_append, hm1]
      rfl
    · rw [List.countP_append, List.countP_append, hm2]
      rfl
  · rw [if_neg h] at hlog
    rw [hlog, if_neg h]
    constructor
    · rw [List.countP_append, List.countP_append, hm1]
      rfl
    · rw [List.countP_append, List.countP_append, hm2]
      rfl

/-- Claim C7: per world, a flagged world gets its pre-reset observation slice
snapshotted into final_observation and a reset_world call; an unflagged world
gets None and no reset_world call. -/
theorem claim_C7 {σ : Type} (E : EngineOps σ) (H : EnvHooks) (n w : ℕ)
    (s : σ) (a : List ℕ) (i : ℕ) (hi : i < n) :
    ((bveNeedsReset E H n w s a).getD i false = true →
        (bveStep E H n w s a).2.finalObservation.getD i none
            = some ((bveObsPre E H n w s a).getD i [])
          ∧ ECall.resetWorld i (Int.ofNat ((bveTickIds E H s a).getD i 0))
              ∈ (bveStep E H n w s a).1.2)
      ∧ ((bveNeedsReset E H n w s a).getD i false = false →
          (bveStep E H n w s a).2.finalObservation.getD i none = none
            ∧ ∀ sd : ℤ, ECall.resetWorld i sd ∉ (bveStep E H n w s a).1.2) := by
  constructor
  · intro hflag
    refine ⟨?_, ?_⟩
    · rw [bveStep_finalObservation, bveLoop_fo_getD E H n w s a i hi,
        if_pos hflag]
    · rw [bveStep_log, bveLoop_log]
      refine List.mem_append_left _ (List.mem_append_right _ ?_)
      exact List.mem_map.mpr
        ⟨i, List.mem_filter.mpr ⟨List.mem_range.mpr hi, hflag⟩, rfl⟩
  · intro hflag
    refine ⟨?_, ?_⟩
    · rw [bveStep_finalObservation, bveLoop_fo_getD E H n w s a i hi, hflag]
      rfl
    · intro sd hmem
      rw [bveStep_log, bveLoop_log] at hmem
      rcases List.mem_append.mp hmem with hmem1 | hmem2
      · rcases List.mem_append.mp hmem1 with hA | hB
        · simp at hA
        · rcases List.mem_map.mp hB with ⟨j, hjf, hje⟩
          simp only [ECall.resetWorld.injEq] at hje
          obtain ⟨hji, -⟩ := hje
          rcases List.mem_filter.mp hjf with ⟨-, hjflag⟩
          rw [hji, hflag] at hjflag
          exact Bool.false_ne_true hjflag
      · by_cases hany : (bveNeedsReset E H n w s a).any (fun b => b) = true
        · rw [if_pos hany] at hmem2
          simp at hmem2
        · rw [if_neg hany] at hmem2
          simp at hmem2

/-- A one-world engine over trivial state, used to instantiate the
BatchedVecEnv theorems on concrete inputs. -/
def unitEngine : EngineOps Unit where
  stepAndObserve _ _ := ((), [0], [0])
  observeAll _ := ((), [0])
  resetWorld _ _ _ := ()
  resetAll _ _ := ()

/-- Hooks that flag every world terminated, used to instantiate the
BatchedVecEnv theorems on concrete inputs. -/
def unitHooks : EnvHooks where
  actionsToCommands _ := [[]]
  computeRewards _ _ := [0]
  checkTerminated _ _ := [true]
  checkTruncated _ _ := [false]

/-- Concrete instance of claim C7: with one world flagged terminated, its
final_observation slot holds the pre-reset observation slice. -/
theorem claim_C7_witness :
    0 < 1
      ∧ (bveStep unitEngine unitHooks 1 1 () []).2.finalObservation.getD 0 none
          = some ((bveObsPre unitEngine unitHooks 1 1 () []).getD 0 []) :=
  ⟨by decide,
    ((claim_C7 unitEngine unitHooks 1 1 () [] 0 (by decide)).1 (by rfl)).1⟩

/-- The per-world seeds BatchedVecEnv.reset passes to reset_all: range ids
when no seed is given, base + index for a scalar seed, the list itself for a
seed list. -/
def bveSeeds (n : ℕ) (seed : Option (ℤ ⊕ List ℤ)) : List ℤ :=
  match seed with
  | none => (List.range n).map Int.ofNat
  | some (Sum.inl k) => (List.range n).map (fun i => k + Int.ofNat i)
  | some (Sum.inr l) => l

/-- BatchedVecEnv.reset: one reset_all with the per-world seeds, then one
observe_all whose flat output is reshaped into the returned batch. -/
def bveReset {σ : Type} (E : EngineOps σ) (n w : ℕ) (s : σ)
    (seed : Option (ℤ ⊕ List ℤ)) : (σ × List ECall) × List (List ℚ) :=
  ((eObserveAll E (eResetAll E (bveSeeds n seed) (s, []))).1,
    reshape n w (eObserveAll E (eResetAll E (bveSeeds n seed) (s, []))).2)

/-- Claim C8: BatchedVecEnv.reset makes exactly the calls reset_all(seeds)
then observe_all; a scalar seed s gives world i the seed s + i for every
i < num_envs, a seed list is passed through unchanged, and the returned batch
is the reshaped observe_all output of the post-reset engine. -/
theorem claim_C8 {σ : Type} (E : EngineOps σ) (n w : ℕ) (s : σ) (k : ℤ)
    (l : List ℤ) (sd : Option (ℤ ⊕ List ℤ)) :
    (bveReset E n w s sd).1.2
        = [ECall.resetAll (bveSeeds n sd), ECall.observeAll]
      ∧ (bveSeeds n (some (Sum.inl k))).length = n
      ∧ (∀ i : ℕ, i < n →
          (bveSeeds n (some (Sum.inl k))).getD i 0 = k + Int.ofNat i)
      ∧ bveSeeds n (some (Sum.inr l)) = l
      ∧ (bveReset E n w s sd).2
          = reshape n w (E.observeAll (E.resetAll s (bveSeeds n sd))).2 := by
  refine ⟨rfl, ?_, ?_, rfl, rfl⟩
  · show ((List.range n).map (fun i => k + Int.ofNat i)).length = n
    rw [List.length_map, List.length_range]
  · intro i hi
    exact getD_range_map n (fun i => k + Int.ofNat i) 0 i hi

/-- Concrete instance of claim C8: scalar seed 5 over two worlds gives world
1 the seed 5 + 1. -/
theorem claim_C8_witness :
    1 < 2 ∧ (bveSeeds 2 (some (Sum.inl 5))).getD 1 0 = 5 + Int.ofNat 1 :=
  ⟨by decide,
    (claim_C8 unitEngine 2 1 () 5 [] (some (Sum.inl 5))).2.2.1 1 (by decide)⟩

/-! ### Single-world Gymnasium adapter (env.py) -/

/-- Abstract interface of a World plus its compiled observation plan as
MurkEnv uses them: reset reseeds, step runs one tick with optional commands,
execute extracts (observation, tick_id, age_ticks) from the current state. -/
structure WorldOps (σ : Type) where
  reset : σ → ℤ → σ
  step : σ → Option (List ℕ) → σ
  execute : σ → List ℚ × ℕ × ℕ

/-- One world / observation-plan call, as recorded in a call trace. -/
inductive WCall where
  | reset (seed : ℤ) : WCall
  | step (cmds : Option (List ℕ)) : WCall
  | execute : WCall
deriving DecidableEq

/-- Discriminator for world.step calls. -/
def WCall.isStep : WCall → Bool
  | WCall.step _ => true
  | _ => false

/-- world.reset(seed), with the call appended to the trace. -/
def wReset {σ : Type} (W : WorldOps σ) (seed : ℤ) (st : σ × List WCall) :
    σ × List WCall :=
  (W.reset st.1 seed, st.2 ++ [WCall.reset seed])

/-- world.step(commands), with the call appended to the trace. -/
def wStep {σ : Type} (W : WorldOps σ) (cmds : Option (List ℕ))
    (st : σ × List WCall) : σ × List WCall :=
  (W.step st.1 cmds, st.2 ++ [WCall.step cmds])

/-- obs_plan.execute(world, obs_buf, mask_buf), with the call appended to the
trace. -/
def wExecute {σ : Type} (W : WorldOps σ) (st : σ × List WCall) :
    (σ × List WCall) × List ℚ × ℕ × ℕ :=
  ((st.1, st.2 ++ [WCall.execute]), W.execute st.1)

/-- MurkEnv.reset: update the stored seed if one is given, reset the world
with the stored seed, step once with no commands to populate field data, and
extract the returned observation through the observation plan. Returns the
world state with its call trace, the stored seed, and (obs, tick_id,
age_ticks). -/
def murkEnvReset {σ : Type} (W : WorldOps σ) (s : σ) (envSeed : ℤ)
    (seed : Option ℤ) : (σ × List WCall) × ℤ × List ℚ × ℕ × ℕ :=
  let newSeed := match seed with
    | some sd => sd
    | none => envSeed
  ((wExecute W (wStep W none (wReset W newSeed (s, [])))).1, newSeed,
    (wExecute W (wStep W none (wReset W newSeed (s, [])))).2)

/-- Claim C10: MurkEnv.reset makes exactly the calls reset(seed), step(None),
execute, in that order — one world step with no commands — so the returned
observation is the plan output on the state after one tick following the
reset, never the pre-step tick-0 state. -/
theorem claim_C10 {σ : Type} (W : WorldOps σ) (s : σ) (envSeed : ℤ)
    (seed : Option ℤ) :
    (murkEnvReset W s envSeed seed).1.2
        = [WCall.reset (seed.getD envSeed), WCall.step none, WCall.execute]
      ∧ (murkEnvReset W s envSeed seed).1.2.countP WCall.isStep = 1
      ∧ (murkEnvReset W s envSeed seed).2.2
          = W.execute (W.step (W.reset s (seed.getD envSeed)) none) := by
  cases seed with
  | none => exact ⟨rfl, rfl, rfl⟩
  | some sd => exact ⟨rfl, rfl, rfl⟩

end Murk
